import Mathlib

/-!
# pistarlabs/configs: path resolution and typed accessors

A shallow embedding of `config.go`.

* Go strings are lists of characters (`GoString`); the only delimiter the
  source ever splits or joins on is the one-character string `"."`.
* `interface{}` is the inductive type `Value`, one constructor per dynamic
  type the source switches on, plus `null` and `other` for everything else.
* A Go function returning `(T, error)` returns `Result T`: `ok v` stands for
  `(v, nil)`, `err e` for `(zero, e)`, and `panic p` for a run-time panic
  raised while the function ran.
* An `error` value built by `fmt.Errorf` is kept as its format string (the
  constructor) together with its arguments (the fields).
-/

set_option autoImplicit false

/-- A Go `string`. -/
abbrev GoString := List Char

/-- A Go `int` (64 bits wide, `strconv.IntSize = 64`). -/
abbrev GoInt := Int

/-- A Go `bool`. -/
abbrev GoBool := Bool

/-- Smallest value of a Go `int`. -/
def minInt : Int := -(2 ^ 63)

/-- Largest value of a Go `int`. -/
def maxInt : Int := 2 ^ 63 - 1

/-- An IEEE-754 binary64 number. `finite neg mant exp` denotes
`(-1)^neg * mant * 2^exp` with `mant < 2^53` and `-1074 ≤ exp ≤ 971`
(`float64.wellFormed`); a small number may be written with several
`(mant, exp)` pairs, `1000000 * 2^0` as well as `15625 * 2^6`, and the
operations below depend on the denoted number only (and on the sign of a
zero). -/
inductive float64 where
  | finite (neg : Bool) (mant : Nat) (exp : Int)
  | inf (neg : Bool)
  | nan
  deriving DecidableEq, Repr

/-- The mantissa and the exponent are those of a binary64 number. -/
def float64.wellFormed : float64 → Prop
  | .finite _ m e => m < 2 ^ 53 ∧ -1074 ≤ e ∧ e ≤ 971
  | _ => True

/-- The number of low bits of `n` that do not fit a 53-bit mantissa, counted
up from `s`; an `int` has at most 11 of them. -/
def excessBits : Nat → Nat → Nat → Nat
  | 0, _, s => s
  | fuel + 1, n, s => if n / 2 ^ s < 2 ^ 53 then s else excessBits fuel n (s + 1)

/-- The conversion `float64(i)` of an `int`: exact below `2^53`, rounded to
53 bits (ties to the even mantissa) above. -/
def float64.ofInt (i : Int) : float64 :=
  let n := i.natAbs
  let shift := excessBits 11 n 0
  let q := n / 2 ^ shift
  let r := n % 2 ^ shift
  let up := 2 ^ shift < 2 * r ∨ (2 * r = 2 ^ shift ∧ q % 2 = 1)
  if up then
    if q + 1 = 2 ^ 53 then .finite (decide (i < 0)) (2 ^ 52) (shift + 1)
    else .finite (decide (i < 0)) (q + 1) shift
  else .finite (decide (i < 0)) q shift

/-- The dynamic values an `interface{}` can hold. -/
inductive Value where
  | null
  | bool (b : Bool)
  | float64 (f : float64)
  | int (i : Int)
  | string (s : GoString)
  | list (xs : List Value)
  | map (m : List (GoString × Value))
  | imap (m : List (Value × Value))
  | other (typeName : GoString)

/-- The arguments passed for a variadic parameter `defaults ...T`. -/
abbrev Variadic (α : Type) := List α

/-- A `[]interface{}`. -/
abbrev Slice := List Value

/-- A `map[string]interface{}`, as an association list; the first binding of
a key is the one the map holds. -/
abbrev StrMap := List (GoString × Value)

/-- The text `%T` prints for a value. -/
def Value.typeName : Value → GoString
  | .null => "<nil>".toList
  | .bool _ => "bool".toList
  | .float64 _ => "float64".toList
  | .int _ => "int".toList
  | .string _ => "string".toList
  | .list _ => "[]interface \x7b\x7d".toList
  | .map _ => "map[string]interface \x7b\x7d".toList
  | .imap _ => "map[interface \x7b\x7d]interface \x7b\x7d".toList
  | .other t => t

/-- The two ways a `strconv` parse fails. -/
inductive NumErrKind where
  | malformed
  | range
  deriving DecidableEq, Repr

/-- An `error` value: the format string (constructor) and its arguments. -/
inductive Error where
  /-- Format `"Invalid path %q"`. -/
  | invalidPath (path : GoString)
  /-- Format `"Index out of range at %q: list has only %v items"`. -/
  | indexOutOfRange (pfx : GoString) (len : Nat)
  /-- Format `"Invalid list index at %q"`. -/
  | invalidListIndex (pfx : GoString)
  /-- Format `"Nonexistent map key at %q"`. -/
  | nonexistentMapKey (pfx : GoString)
  /-- Format `"Invalid type at %q: expected []interface{} or map[string]interface{}; got %T"`. -/
  | invalidType (pfx : GoString) (got : GoString)
  /-- Format `"Type mismatch: expected <expected>; got %T"`. -/
  | typeMismatch (expected : GoString) (got : GoString)
  /-- Format `"Value can't be converted to int: %v"`. -/
  | cannotConvertToInt (shown : GoString)
  /-- A `*strconv.NumError`: the failing function, its input, and the kind. -/
  | numError (fn : GoString) (num : GoString) (kind : NumErrKind)
  deriving DecidableEq, Repr

/-- A run-time panic. -/
inductive Panic where
  /-- Message `runtime error: index out of range [i] with length len`. -/
  | indexOutOfRange (i : Int) (len : Nat)
  deriving DecidableEq, Repr

/-- What a Go function of result type `(T, error)` produces. -/
inductive Result (α : Type) where
  | ok (v : α)
  | err (e : Error)
  | panic (p : Panic)

/-- What a Go function of result type `T` produces. -/
inductive Outcome (α : Type) where
  | value (v : α)
  | panic (p : Panic)

/-! ## `strings.Split`, `strings.Join` -/

/-- Library function `strings.Split(s, sep)` for a one-character separator. -/
def Split (sep : Char) : GoString → List GoString
  | [] => [[]]
  | c :: cs =>
    if c = sep then [] :: Split sep cs
    else
      match Split sep cs with
      | [] => [[c]]
      | h :: t => (c :: h) :: t

/-- Library function `strings.Join(elems, sep)`. -/
def Join (sep : GoString) : List GoString → GoString
  | [] => []
  | [a] => a
  | a :: b :: rest => a ++ sep ++ Join sep (b :: rest)

/-! ## `strconv.ParseInt(s, 10, 0)` -/

/-- The value of a decimal digit, if the character is one. -/
def digitVal (c : Char) : Option Nat :=
  if '0' ≤ c ∧ c ≤ '9' then some (c.toNat - '0'.toNat) else none

/-- The digit loop of `strconv.ParseUint` in base 10, without the 64-bit
overflow cut (the callers compare the exact number with their own cutoff,
which is below `2^64`): `none` on a character that is not a digit. -/
def parseDigits : Nat → GoString → Option Nat
  | acc, [] => some acc
  | acc, c :: cs =>
    match digitVal c with
    | some d => parseDigits (acc * 10 + d) cs
    | none => none

/-- Library function `strconv.ParseInt(s, 10, 0)`: an optional sign, then one or more decimal
digits, denoting a number of the `int` range. -/
def ParseInt (s : GoString) : Except NumErrKind Int :=
  match s with
  | [] => .error .malformed
  | c :: cs =>
    let neg := c = '-'
    let body := if c = '+' ∨ c = '-' then cs else s
    match body with
    | [] => .error .malformed
    | _ :: _ =>
      match parseDigits 0 body with
      | none => .error .malformed
      | some un =>
        if ¬ neg ∧ un ≥ 2 ^ 63 then .error .range
        else if neg ∧ un > 2 ^ 63 then .error .range
        else .ok (if neg then -(un : Int) else (un : Int))

/-! ## `Get` -/

/-- The normalisation loop of `Get`: `for k, v := range parts`, run over the
segments `orig` that are still to visit (the range expression is evaluated
once, so reassigning `parts` does not change what is visited), with `k` the
index of the first of them. -/
def normalizeParts (path : GoString) :
    Nat → List GoString → List GoString → Except Error (List GoString)
  | _, [], parts => .ok parts
  | k, v :: orig, parts =>
    if v = [] then
      if k = 0 then normalizeParts path (k + 1) orig (parts.drop 1)
      else .error (.invalidPath path)
    else normalizeParts path (k + 1) orig parts

/-- The lookup `c[part]` of a `map[string]interface{}`. -/
def mapLookup (part : GoString) : StrMap → Option Value
  | [] => none
  | (k, v) :: rest => if k = part then some v else mapLookup part rest

/-- The walking loop of `Get`: `for pos, part := range parts`, run over the
segments `rest` still to visit, `pos` being the index of the first of them
in `parts`. -/
def walk (parts : List GoString) : Nat → List GoString → Value → Result Value
  | _, [], cfg => .ok cfg
  | pos, part :: rest, cfg =>
    match cfg with
    | .list c =>
      match ParseInt part with
      | .ok i =>
        if i < (c.length : Int) then
          -- `cfg = c[i]`: the index expression panics when `i` is negative
          if 0 ≤ i then
            match c.get? i.toNat with
            | some v => walk parts (pos + 1) rest v
            | none => .panic (.indexOutOfRange i c.length)
          else .panic (.indexOutOfRange i c.length)
        else .err (.indexOutOfRange (Join ['.'] (parts.take (pos + 1))) c.length)
      | .error _ => .err (.invalidListIndex (Join ['.'] (parts.take (pos + 1))))
    | .map c =>
      match mapLookup part c with
      | some value => walk parts (pos + 1) rest value
      | none => .err (.nonexistentMapKey (Join ['.'] (parts.take (pos + 1))))
    | other => .err (.invalidType (Join ['.'] (parts.take (pos + 1))) other.typeName)

/-- Function `Get` returns a child of the given value according to a dotted path. -/
def Get (cfg : Value) (path : GoString) : Result Value :=
  match normalizeParts path 0 (Split '.' path) (Split '.' path) with
  | .error e => .err e
  | .ok parts => walk parts 0 parts cfg

/-! ## Decimal rendering (`strconv.Itoa`, `fmt.Sprint` of an `int`) -/

/-- The character of a decimal digit. -/
def digitChar (d : Nat) : Char := Char.ofNat ('0'.toNat + d)

/-- The digit loop of `strconv.FormatUint` in base 10: digits are produced
from the least significant one, in front of `acc`. The first argument bounds
the number of iterations; `n + 1` is more than `n` has digits. -/
def decimalAux : Nat → Nat → GoString → GoString
  | 0, _, acc => acc
  | fuel + 1, n, acc =>
    if n < 10 then digitChar n :: acc
    else decimalAux fuel (n / 10) (digitChar (n % 10) :: acc)

/-- The decimal rendering of a natural number. -/
def decimal (n : Nat) : GoString := decimalAux (n + 1) n []

/-- Library function `strconv.FormatInt(i, 10)`, which is also what `fmt.Sprint` prints for
an `int`. -/
def FormatInt (i : Int) : GoString :=
  if i < 0 then '-' :: decimal i.natAbs else decimal i.toNat

/-! ## Following a chain of steps (the specification's reading of a path) -/

/-- One step of a path: a key of a mapping or an index of a sequence. -/
inductive Step where
  | key (k : GoString)
  | index (i : Nat)
  deriving DecidableEq, Repr

/-- The path segment that writes a step: the key itself, or the decimal
rendering of the index. -/
def Step.segment : Step → GoString
  | .key k => k
  | .index i => decimal i

/-- The node one step away: the value bound to a key present in a mapping,
the element at an index below the length of a sequence. -/
def Step.apply : Value → Step → Option Value
  | .map m, .key k => mapLookup k m
  | .list xs, .index i => xs.get? i
  | _, _ => none

/-- The node reached by following the steps one after the other. -/
def follow : Value → List Step → Option Value
  | v, [] => some v
  | v, s :: rest =>
    match s.apply v with
    | some w => follow w rest
    | none => none

/-- A step that a dotted path can write: a key is non-empty and has no
delimiter in it, an index is within the `int` range (as is every index below
the length of a Go slice). -/
def Step.writable : Step → Prop
  | .key k => k ≠ [] ∧ '.' ∉ k
  | .index i => i < 2 ^ 63

instance (s : Step) : Decidable s.writable := by
  cases s <;> unfold Step.writable <;> exact inferInstance

/-! ## `fmt.Sprint` of a `float64`

`fmt.Sprint` prints a `float64` with the verb `%v`, that is
`strconv.FormatFloat(f, 'g', -1, 64)`: the shortest decimal digits that
still identify the number, in the `%e` form when the decimal exponent is
below `-4` or at least `6`, and in the `%f` form otherwise. -/

/-- Doubles the mantissa until it has 53 bits or the exponent is the
smallest one, so that `2^exp` is the distance to the next `float64`;
52 doublings are enough for a mantissa that is not zero. -/
def normalizeMant : Nat → Nat → Int → Nat × Int
  | 0, m, e => (m, e)
  | fuel + 1, m, e =>
    if m < 2 ^ 52 ∧ -1074 < e then normalizeMant fuel (2 * m) (e - 1) else (m, e)

/-- The number `a * 10^q`, scaled by `10^max(-q,0) * 2^max(-e,0)`. -/
def scaleDec (a : Nat) (q e : Int) : Nat := a * 10 ^ q.toNat * 2 ^ (-e).toNat

/-- The number `b * 2^e`, scaled by `10^max(-q,0) * 2^max(-e,0)`. -/
def scaleBin (b : Nat) (e q : Int) : Nat := b * 2 ^ e.toNat * 10 ^ (-q).toNat

/-- The exact decimal `d * 10^q` of `m * 2^e`. -/
def exactDecimal (m : Nat) (e : Int) : Nat × Int :=
  if 0 ≤ e then (m * 2 ^ e.toNat, 0) else (m * 5 ^ (-e).toNat, e)

/-- The rounding interval of the `float64` `m * 2^e` (normalised), in units
of `2^(e-2)`: every decimal between the two bounds (the bounds themselves
when the mantissa is even) is read back as this number. -/
def lowerBound (m : Nat) (e : Int) : Nat :=
  if m = 2 ^ 52 ∧ -1074 < e then 4 * m - 1 else 4 * m - 2

/-- The upper end of the rounding interval, in units of `2^(e-2)`. -/
def upperBound (m : Nat) : Nat := 4 * m + 2

/-- The walk of `roundShortest` over the exact decimal `dE * 10^qE` of
`m * 2^e`: with `k` trailing digits dropped, the truncated decimal is taken
if it is inside the rounding interval, the next decimal up if that one is,
the nearer of the two (ties to the even digit) if both are; otherwise one
digit more is kept. With no digit dropped the decimal is the exact one. -/
def shortestAux (m : Nat) (e : Int) (dE : Nat) (qE : Int) : Nat → Nat × Int
  | 0 => (dE, qE)
  | k + 1 =>
    let p := 10 ^ (k + 1)
    let down := dE / p
    let r := dE % p
    let q := qE + ((k + 1 : Nat) : Int)
    let incl := m % 2 = 0
    let lo := scaleBin (lowerBound m e) (e - 2) q
    let hi := scaleBin (upperBound m) (e - 2) q
    let vd := scaleDec down q (e - 2)
    let vu := scaleDec (down + 1) q (e - 2)
    let okdown := lo < vd ∨ (incl ∧ lo = vd)
    let okup := vu < hi ∨ (incl ∧ vu = hi)
    if okdown ∧ okup then
      if p < 2 * r ∨ (2 * r = p ∧ down % 2 = 1) then (down + 1, q) else (down, q)
    else if okdown then (down, q)
    else if okup then (down + 1, q)
    else shortestAux m e dE qE k

/-- The shortest decimal `d * 10^q` that identifies the positive
`float64` `m * 2^e`. -/
def shortestDecimal (m : Nat) (e : Int) : Nat × Int :=
  let me := normalizeMant 52 m e
  let ex := exactDecimal me.1 me.2
  shortestAux me.1 me.2 ex.1 ex.2 ((decimal ex.1).length - 1)

/-- Digits without their trailing zeros. -/
def trimZeros (ds : GoString) : GoString :=
  (ds.reverse.dropWhile (fun c => c = '0')).reverse

/-- The exponent of the `%e` form: a sign and at least two digits. -/
def fmtExp (exp : Int) : GoString :=
  (if exp < 0 then '-' else '+') ::
    (if exp.natAbs < 10 then '0' :: decimal exp.natAbs else decimal exp.natAbs)

/-- Verb `%e` with all the digits `ds` (none when the number is zero), the
decimal point standing `dp` digits into them. -/
def fmtE (ds : GoString) (dp : Int) : GoString :=
  match ds with
  | [] => '0' :: 'e' :: fmtExp 0
  | [c] => c :: 'e' :: fmtExp (dp - 1)
  | c :: more => c :: '.' :: (more ++ 'e' :: fmtExp (dp - 1))

/-- Verb `%f` with the digits `ds`, the decimal point standing `dp` digits into
them, and as many digits after the point as `ds` has there. -/
def fmtF (ds : GoString) (dp : Int) : GoString :=
  let intPart :=
    if 0 < dp then ds.take dp.toNat ++ List.replicate (dp.toNat - ds.length) '0'
    else ['0']
  let prec := ((ds.length : Int) - dp).toNat
  if 0 < prec then
    intPart ++ '.' ::
      (List.replicate (min (-dp).toNat prec) '0' ++ ds.drop dp.toNat)
  else intPart

/-- Verb `%v` of a float64 that is neither negative nor a NaN or an infinity. -/
def formatMagnitude (m : Nat) (e : Int) : GoString :=
  if m = 0 then ['0']
  else
    let dq := shortestDecimal m e
    let all := decimal dq.1
    let ds := trimZeros all
    let dp : Int := (all.length : Int) + dq.2
    if dp - 1 < -4 ∨ 6 ≤ dp - 1 then fmtE ds dp else fmtF ds dp

/-- Library function `fmt.Sprint(f)` for a `float64`. -/
def FormatFloat : float64 → GoString
  | .nan => "NaN".toList
  | .inf false => "+Inf".toList
  | .inf true => "-Inf".toList
  | .finite neg m e => if neg then '-' :: formatMagnitude m e else formatMagnitude m e

/-- The conversion `int(f)`: the fraction is discarded; a number outside the
`int` range, an infinity or a NaN has no defined result in Go, and gives the
smallest `int` here, as it does on amd64. -/
def float64.toInt : float64 → Int
  | .finite neg m e =>
    let t : Nat := if 0 ≤ e then m * 2 ^ e.toNat else m / 2 ^ (-e).toNat
    let s : Int := if neg then -(t : Int) else (t : Int)
    if minInt ≤ s ∧ s ≤ maxInt then s else minInt
  | _ => minInt

/-- The number has a fractional part that is not zero. -/
def float64.hasFraction : float64 → Prop
  | .finite _ m e => e < 0 ∧ ¬ (2 ^ (-e).toNat ∣ m)
  | _ => False

instance (f : float64) : Decidable f.hasFraction := by
  cases f <;> unfold float64.hasFraction <;> exact inferInstance

/-! ## `strconv.ParseBool` -/

/-- Library function `strconv.ParseBool`: exactly twelve spellings are accepted. -/
def ParseBool (str : GoString) : Except NumErrKind Bool :=
  if str = "1".toList ∨ str = "t".toList ∨ str = "T".toList ∨
      str = "true".toList ∨ str = "TRUE".toList ∨ str = "True".toList then .ok true
  else if str = "0".toList ∨ str = "f".toList ∨ str = "F".toList ∨
      str = "false".toList ∨ str = "FALSE".toList ∨ str = "False".toList then .ok false
  else .error .malformed

/-- Library function `fmt.Sprint(b)` for a `bool`. -/
def FormatBool (b : Bool) : GoString := if b then "true".toList else "false".toList

/-! ## `Config` and its accessors -/

/-- Config represents a configuration with convenient access methods. -/
structure Config where
  Root : Value

/-- Method `String` returns a string according to a dotted path. -/
def Config.String (c : Config) (path : GoString) : Result GoString :=
  match Get c.Root path with
  | .err e => .err e
  | .panic p => .panic p
  | .ok n =>
    match n with
    | .bool b => .ok (FormatBool b)
    | .float64 f => .ok (FormatFloat f)
    | .int i => .ok (FormatInt i)
    | .string s => .ok s
    | other => .err (.typeMismatch "string".toList other.typeName)

/-- Method `UString` returns a string according to a dotted path or default or "". -/
def Config.UString (c : Config) (path : GoString) (defaults : Variadic GoString) :
    Outcome GoString :=
  match c.String path with
  | .ok value => .value value
  | .panic p => .panic p
  | .err _ =>
    match defaults with
    | d :: _ => .value d
    | [] => .value []

/-- Method `Bool` returns a bool according to a dotted path. -/
def Config.Bool (c : Config) (path : GoString) : Result GoBool :=
  match Get c.Root path with
  | .err e => .err e
  | .panic p => .panic p
  | .ok n =>
    match n with
    | .bool b => .ok b
    | .string s =>
      match ParseBool s with
      | .ok b => .ok b
      | .error k => .err (.numError "ParseBool".toList s k)
    | other => .err (.typeMismatch "bool".toList other.typeName)

/-- Method `UBool` returns a bool according to a dotted path or default value or
false. -/
def Config.UBool (c : Config) (path : GoString) (defaults : Variadic GoBool) :
    Outcome GoBool :=
  match c.Bool path with
  | .ok value => .value value
  | .panic p => .panic p
  | .err _ =>
    match defaults with
    | d :: _ => .value d
    | [] => .value false

/-- Method `Float64` returns a float64 according to a dotted path. The standard
library's `strconv.ParseFloat(s, 64)`, which the source calls on a string,
is the parameter `parseFloat`. -/
def Config.Float64 (parseFloat : GoString → Except NumErrKind float64)
    (c : Config) (path : GoString) : Result float64 :=
  match Get c.Root path with
  | .err e => .err e
  | .panic p => .panic p
  | .ok n =>
    match n with
    | .float64 f => .ok f
    | .int i => .ok (float64.ofInt i)
    | .string s =>
      match parseFloat s with
      | .ok f => .ok f
      | .error k => .err (.numError "ParseFloat".toList s k)
    | other => .err (.typeMismatch "float64".toList other.typeName)

/-- Method `UFloat64` returns a float64 according to a dotted path or default value
or 0. -/
def Config.UFloat64 (parseFloat : GoString → Except NumErrKind float64)
    (c : Config) (path : GoString) (defaults : Variadic float64) : Outcome float64 :=
  match c.Float64 parseFloat path with
  | .ok value => .value value
  | .panic p => .panic p
  | .err _ =>
    match defaults with
    | d :: _ => .value d
    | [] => .value (.finite false 0 0)

/-- Method `Int` returns an int according to a dotted path. In the `string` case
the source ends with `return 0, err` outside the `if` that declared the
parse error, so the `err` returned there is the one of `Get`, which is
`nil` at that point: a string that does not parse gives `0` and no error. -/
def Config.Int (c : Config) (path : GoString) : Result GoInt :=
  match Get c.Root path with
  | .err e => .err e
  | .panic p => .panic p
  | .ok n =>
    match n with
    | .float64 f =>
      if FormatInt f.toInt = FormatFloat f then .ok f.toInt
      else .err (.cannotConvertToInt (FormatFloat f))
    | .int i => .ok i
    | .string s =>
      match ParseInt s with
      | .ok v => .ok v
      | .error _ => .ok 0
    | other => .err (.typeMismatch "int".toList other.typeName)

/-- Method `UInt` returns an int according to a dotted path or default value or 0. -/
def Config.UInt (c : Config) (path : GoString) (defaults : Variadic GoInt) :
    Outcome GoInt :=
  match c.Int path with
  | .ok value => .value value
  | .panic p => .panic p
  | .err _ =>
    match defaults with
    | d :: _ => .value d
    | [] => .value 0

/-- Method `List` returns a `[]interface{}` according to a dotted path. -/
def Config.List (c : Config) (path : GoString) : Result Slice :=
  match Get c.Root path with
  | .err e => .err e
  | .panic p => .panic p
  | .ok n =>
    match n with
    | .list value => .ok value
    | other => .err (.typeMismatch "[]interface\x7b\x7d".toList other.typeName)

/-- Method `UList` returns a `[]interface{}` according to a dotted path or defaults
or an empty one. -/
def Config.UList (c : Config) (path : GoString) (defaults : Variadic Slice) :
    Outcome Slice :=
  match c.List path with
  | .ok value => .value value
  | .panic p => .panic p
  | .err _ =>
    match defaults with
    | d :: _ => .value d
    | [] => .value []

/-- Method `Map` returns a `map[string]interface{}` according to a dotted path. -/
def Config.Map (c : Config) (path : GoString) : Result StrMap :=
  match Get c.Root path with
  | .err e => .err e
  | .panic p => .panic p
  | .ok n =>
    match n with
    | .map value => .ok value
    | other => .err (.typeMismatch "map[string]interface\x7b\x7d".toList other.typeName)

/-- Method `UMap` returns a `map[string]interface{}` according to a dotted path or
default or an empty one. -/
def Config.UMap (c : Config) (path : GoString) (defaults : Variadic StrMap) :
    Outcome StrMap :=
  match c.Map path with
  | .ok value => .value value
  | .panic p => .panic p
  | .err _ =>
    match defaults with
    | d :: _ => .value d
    | [] => .value []

/-! ## Sample documents -/

/-- The document `{"development":{"database":{"host":"localhost","port":12345}}}`
as `encoding/json` delivers it: every number is a `float64`. -/
def sampleDoc : Value :=
  .map [("development".toList, .map [("database".toList,
    .map [("host".toList, .string "localhost".toList),
          ("port".toList, .float64 (.finite false 12345 0))])])]

/-- The document `{"servers":["alpha","beta"]}`. -/
def listDoc : Value :=
  .map [("servers".toList, .list [.string "alpha".toList, .string "beta".toList])]

/-- The spellings `strconv.ParseBool` reads as `true`. -/
def trueSpellings : List GoString :=
  ["1".toList, "t".toList, "T".toList, "true".toList, "TRUE".toList, "True".toList]

/-- The spellings `strconv.ParseBool` reads as `false`. -/
def falseSpellings : List GoString :=
  ["0".toList, "f".toList, "F".toList, "false".toList, "FALSE".toList, "False".toList]

/-! ## `normalize` -/

/-- An `error` value of `normalize`: the format string (constructor) and the
value it prints. -/
inductive NormalizeError where
  /-- Format `"Unsupported map key: %#v"`. -/
  | unsupportedMapKey (k : Value)
  /-- Format `"Unsupported map value: %#v"`. -/
  | unsupportedMapValue (v : Value)
  /-- Format `"Unsupported list item: %#v"`. -/
  | unsupportedListItem (v : Value)
  /-- Format `"Unsupported type: %T"`. -/
  | unsupportedType (typeName : GoString)

mutual
/-- Function `normalize` normalizes an unmarshalled value. -/
def configs.normalize : Value → Except NormalizeError Value
  | .imap value =>
    match normalizeIMap value with
    | .ok node => .ok (.map node)
    | .error e => .error e
  | .map value =>
    match normalizeMap value with
    | .ok node => .ok (.map node)
    | .error e => .error e
  | .list value =>
    match normalizeList value with
    | .ok node => .ok (.list node)
    | .error e => .error e
  | .bool b => .ok (.bool b)
  | .float64 f => .ok (.float64 f)
  | .int i => .ok (.int i)
  | .string s => .ok (.string s)
  | .null => .error (.unsupportedType (Value.typeName .null))
  | .other t => .error (.unsupportedType t)
/-- The loop over a `map[interface{}]interface{}`. -/
def configs.normalizeIMap : List (Value × Value) → Except NormalizeError StrMap
  | [] => .ok []
  | (k, v) :: rest =>
    match k with
    | .string key =>
      match normalize v with
      | .error _ => .error (.unsupportedMapValue v)
      | .ok item =>
        match normalizeIMap rest with
        | .ok node => .ok ((key, item) :: node)
        | .error e => .error e
    | _ => .error (.unsupportedMapKey k)
/-- The loop over a `map[string]interface{}`. -/
def configs.normalizeMap : List (GoString × Value) → Except NormalizeError StrMap
  | [] => .ok []
  | (key, v) :: rest =>
    match normalize v with
    | .error _ => .error (.unsupportedMapValue v)
    | .ok item =>
      match normalizeMap rest with
      | .ok node => .ok ((key, item) :: node)
      | .error e => .error e
/-- The loop over a `[]interface{}`. -/
def configs.normalizeList : List Value → Except NormalizeError Slice
  | [] => .ok []
  | v :: rest =>
    match normalize v with
    | .error _ => .error (.unsupportedListItem v)
    | .ok item =>
      match normalizeList rest with
      | .ok node => .ok (item :: node)
      | .error e => .error e
end

/-- What `parse` fails with: the error of `json.Unmarshal`, or the one of
`normalize`. -/
inductive ParseError where
  | unmarshal (text : GoString)
  | normalize (e : NormalizeError)

/-- Function `parse` performs JSON parsing. The standard library's
`json.Unmarshal` into an `interface{}` is the parameter `unmarshal`. -/
def configs.parse (unmarshal : GoString → Except GoString Value) (cfg : GoString) :
    Except ParseError Config :=
  match unmarshal cfg with
  | .error e => .error (.unmarshal e)
  | .ok out =>
    match configs.normalize out with
    | .error e => .error (.normalize e)
    | .ok out => .ok ⟨out⟩

/-! ## The shapes of values (the specification's reading) -/

mutual
/-- Every key of every mapping anywhere in the value is a string, and every
value anywhere in it that is not a sequence or a mapping is a boolean, a
number (`float64` or `int`) or a string. -/
def Value.supported : Value → Bool
  | .bool _ => true
  | .float64 _ => true
  | .int _ => true
  | .string _ => true
  | .list xs => Value.supportedList xs
  | .map m => Value.supportedMap m
  | .imap m => Value.supportedIMap m
  | .null => false
  | .other _ => false
/-- Every element of the sequence is supported. -/
def Value.supportedList : List Value → Bool
  | [] => true
  | v :: rest => v.supported && Value.supportedList rest
/-- Every value of the string-keyed mapping is supported. -/
def Value.supportedMap : List (GoString × Value) → Bool
  | [] => true
  | (_, v) :: rest => v.supported && Value.supportedMap rest
/-- Every key of the mapping is a string and every value is supported. -/
def Value.supportedIMap : List (Value × Value) → Bool
  | [] => true
  | (.string _, v) :: rest => v.supported && Value.supportedIMap rest
  | _ :: _ => false
end

mutual
/-- The value is a Node: a boolean, a number, a string, a sequence of Nodes,
or a mapping from string keys to Nodes. -/
def Value.isNode : Value → Bool
  | .bool _ => true
  | .float64 _ => true
  | .int _ => true
  | .string _ => true
  | .list xs => Value.isNodeList xs
  | .map m => Value.isNodeMap m
  | .imap _ => false
  | .null => false
  | .other _ => false
/-- Every element of the sequence is a Node. -/
def Value.isNodeList : List Value → Bool
  | [] => true
  | v :: rest => v.isNode && Value.isNodeList rest
/-- Every value of the string-keyed mapping is a Node. -/
def Value.isNodeMap : List (GoString × Value) → Bool
  | [] => true
  | (_, v) :: rest => v.isNode && Value.isNodeMap rest
end

/-- A document as a YAML-style decoder delivers it: a mapping with
`interface{}` keys, an `int`, and a sequence. -/
def rawDoc : Value :=
  .imap [(.string "port".toList, .int 8080),
         (.string "hosts".toList, .list [.string "alpha".toList, .bool true])]

/-- The document `{"a": null}`. -/
def nullDoc : Value := .map [("a".toList, .null)]

/-- A scalar of each kind, under the keys `b`, `n`, `i` and `s`. -/
def scalarDoc : Value :=
  .map [("b".toList, .bool true), ("n".toList, .float64 (.finite false 3 0)),
        ("i".toList, .int 7), ("s".toList, .string "text".toList)]

/-- The value is a sequence. -/
def Value.isSequence : Value → Bool
  | .list _ => true
  | _ => false

/-- The value is a mapping with string keys. -/
def Value.isMapping : Value → Bool
  | .map _ => true
  | _ => false

/-- The value is a boolean. -/
def Value.isBoolean : Value → Bool
  | .bool _ => true
  | _ => false

/-- The value is a number: a `float64` or an `int`. -/
def Value.isNumber : Value → Bool
  | .float64 _ => true
  | .int _ => true
  | _ => false

/-- The value is a scalar: a boolean, a number or a string. -/
def Value.isScalar : Value → Bool
  | .bool _ => true
  | .float64 _ => true
  | .int _ => true
  | .string _ => true
  | _ => false

/-- The segments of a path after dropping at most one leading empty one. -/
def dropLeadingEmpty : List GoString → List GoString
  | [] :: rest => rest
  | segs => segs

/-! ## `strconv.Quote` (the verb `%q`) and the text of an error -/

/-- The digit `lowerhex[n]` of `strconv`. -/
def lowerhex (n : Nat) : Char :=
  if n < 10 then Char.ofNat ('0'.toNat + n) else Char.ofNat ('a'.toNat + (n - 10))

/-- The `count` lowest hexadecimal digits of `n`, the highest first. -/
def hexDigits (n : Nat) : Nat → GoString
  | 0 => []
  | k + 1 => lowerhex (n / 16 ^ k % 16) :: hexDigits n k

/-- Library function `strconv.IsPrint`: decided by ranges up to U+00FF; for
the runes beyond, the library's table of printable runes is the parameter
`table`. -/
def IsPrint (table : Char → Bool) (r : Char) : Bool :=
  if r.toNat ≤ 0xFF then
    decide ((0x20 ≤ r.toNat ∧ r.toNat ≤ 0x7E) ∨ (0xA1 ≤ r.toNat ∧ r.toNat ≠ 0xAD))
  else table r

/-- Library function `appendEscapedRune` of `strconv`, for the double quote
as the quote character: what one rune of a string becomes inside `%q`. -/
def appendEscapedRune (table : Char → Bool) (r : Char) : GoString :=
  if r = '"' ∨ r = '\\' then ['\\', r]
  else if IsPrint table r then [r]
  else if r.toNat = 7 then ['\\', 'a']
  else if r.toNat = 8 then ['\\', 'b']
  else if r.toNat = 12 then ['\\', 'f']
  else if r.toNat = 10 then ['\\', 'n']
  else if r.toNat = 13 then ['\\', 'r']
  else if r.toNat = 9 then ['\\', 't']
  else if r.toNat = 11 then ['\\', 'v']
  else if r.toNat < 0x20 ∨ r.toNat = 0x7F then '\\' :: 'x' :: hexDigits r.toNat 2
  else if r.toNat < 0x10000 then '\\' :: 'u' :: hexDigits r.toNat 4
  else '\\' :: 'U' :: hexDigits r.toNat 8

/-- The runes of a string, each as `%q` writes it. -/
def quoteRunes (table : Char → Bool) : GoString → GoString
  | [] => []
  | r :: rs => appendEscapedRune table r ++ quoteRunes table rs

/-- Library function `strconv.Quote(s)`, which is what `%q` prints for a
string: the escaped runes between double quotes. -/
def Quote (table : Char → Bool) (s : GoString) : GoString :=
  '"' :: (quoteRunes table s ++ ['"'])

/-- The text of an error, `err.Error()`: the format string of `fmt.Errorf`
with its arguments printed. -/
def Error.text (table : Char → Bool) : Error → GoString
  | .invalidPath path => "Invalid path ".toList ++ Quote table path
  | .indexOutOfRange pfx len =>
    "Index out of range at ".toList ++ Quote table pfx ++
      ": list has only ".toList ++ decimal len ++ " items".toList
  | .invalidListIndex pfx => "Invalid list index at ".toList ++ Quote table pfx
  | .nonexistentMapKey pfx => "Nonexistent map key at ".toList ++ Quote table pfx
  | .invalidType pfx got =>
    "Invalid type at ".toList ++ Quote table pfx ++
      ": expected []interface\x7b\x7d or map[string]interface\x7b\x7d; got ".toList ++ got
  | .typeMismatch expected got =>
    "Type mismatch: expected ".toList ++ expected ++ "; got ".toList ++ got
  | .cannotConvertToInt shown => "Value can\x27t be converted to int: ".toList ++ shown
  | .numError fn num kind =>
    "strconv.".toList ++ fn ++ ": parsing ".toList ++ Quote table num ++ ": ".toList ++
      (match kind with
        | .malformed => "invalid syntax".toList
        | .range => "value out of range".toList)

/-- A printable ASCII character that `%q` writes as it is: from the blank to
the tilde, other than the double quote and the backslash. -/
def plainChar (c : Char) : Bool :=
  decide (0x20 ≤ c.toNat ∧ c.toNat ≤ 0x7E ∧ c ≠ '"' ∧ c ≠ '\\')

/-- The document `[["x"]]`. -/
def nestedListDoc : Value := .list [.list [.string "x".toList]]

/-! ## Lemmas: splitting and joining -/

theorem Split_ne_nil (sep : Char) (s : GoString) : Split sep s ≠ [] := by
  induction s with
  | nil => simp [Split]
  | cons c cs ih =>
    unfold Split
    split
    · simp
    · split <;> simp

theorem Split_of_not_mem (sep : Char) (s : GoString) (h : sep ∉ s) :
    Split sep s = [s] := by
  induction s with
  | nil => rfl
  | cons c cs ih =>
    have hc : c ≠ sep := fun e => h (by simp [e])
    have hcs : sep ∉ cs := fun e => h (by simp [e])
    simp [Split, hc, ih hcs]

theorem Split_append_sep (sep : Char) (a rest : GoString) (h : sep ∉ a) :
    Split sep (a ++ sep :: rest) = a :: Split sep rest := by
  induction a with
  | nil => simp [Split]
  | cons c cs ih =>
    have hc : c ≠ sep := fun e => h (by simp [e])
    have hcs : sep ∉ cs := fun e => h (by simp [e])
    simp [Split, hc, ih hcs]

theorem Split_cons_sep (sep : Char) (s : GoString) :
    Split sep (sep :: s) = [] :: Split sep s := by
  simp [Split]

theorem Split_Join (segs : List GoString) (hne : segs ≠ [])
    (h : ∀ s ∈ segs, '.' ∉ s) : Split '.' (Join ['.'] segs) = segs := by
  induction segs with
  | nil => exact absurd rfl hne
  | cons a rest ih =>
    cases rest with
    | nil => simpa [Join] using Split_of_not_mem '.' a (h a (by simp))
    | cons b rest =>
      have ha : '.' ∉ a := h a (by simp)
      have := ih (by simp) (fun s hs => h s (by simp [hs]))
      simp only [Join, List.append_assoc, List.singleton_append]
      rw [Split_append_sep '.' a _ ha, this]

/-! ## Lemmas: decimal rendering and parsing -/

theorem digitVal_digitChar (d : Nat) (h : d < 10) : digitVal (digitChar d) = some d := by
  interval_cases d <;> decide

theorem digitVal_isSome_iff (c : Char) : (digitVal c).isSome ↔ ('0' ≤ c ∧ c ≤ '9') := by
  unfold digitVal
  split <;> simp_all

theorem parseDigits_append_single (s : GoString) (c : Char) (acc : Nat) :
    parseDigits acc (s ++ [c]) =
      match parseDigits acc s, digitVal c with
      | some n, some d => some (n * 10 + d)
      | _, _ => none := by
  induction s generalizing acc with
  | nil =>
    simp only [List.nil_append, parseDigits]
    cases digitVal c <;> rfl
  | cons x xs ih =>
    simp only [List.cons_append, parseDigits]
    cases hx : digitVal x with
    | none => simp
    | some d => exact ih _

theorem decimalAux_acc (fuel n : Nat) (acc : GoString) :
    decimalAux fuel n acc = decimalAux fuel n [] ++ acc := by
  induction fuel generalizing n acc with
  | zero => simp [decimalAux]
  | succ fuel ih =>
    unfold decimalAux
    split
    · simp
    · rw [ih, ih (n / 10) [digitChar (n % 10)]]
      simp

theorem parseDigits_decimalAux (n : Nat) :
    ∀ fuel, n < fuel → parseDigits 0 (decimalAux fuel n []) = some n := by
  induction n using Nat.strong_induction_on with
  | _ n ih =>
    intro fuel hf
    cases fuel with
    | zero => omega
    | succ fuel =>
      unfold decimalAux
      split
      · rename_i h
        simp [parseDigits, digitVal_digitChar n h]
      · rename_i h
        rw [decimalAux_acc, parseDigits_append_single,
          ih (n / 10) (by omega) fuel (by omega),
          digitVal_digitChar (n % 10) (Nat.mod_lt _ (by omega))]
        simp only [Option.some.injEq]
        omega

theorem parseDigits_decimal (n : Nat) : parseDigits 0 (decimal n) = some n :=
  parseDigits_decimalAux n (n + 1) (Nat.lt_succ_self n)

theorem parseDigits_all_digits (s : GoString) :
    ∀ acc n, parseDigits acc s = some n → ∀ c ∈ s, '0' ≤ c ∧ c ≤ '9' := by
  induction s with
  | nil => intro _ _ _ c hc; simp at hc
  | cons x xs ih =>
    intro acc n h c hc
    simp only [parseDigits] at h
    cases hx : digitVal x with
    | none => simp [hx] at h
    | some d =>
      simp only [hx] at h
      rcases List.mem_cons.mp hc with rfl | hc
      · exact (digitVal_isSome_iff c).mp (by simp [hx])
      · exact ih _ _ h c hc

theorem decimal_all_digits (n : Nat) : ∀ c ∈ decimal n, '0' ≤ c ∧ c ≤ '9' :=
  parseDigits_all_digits _ _ _ (parseDigits_decimal n)

theorem decimal_ne_nil (n : Nat) : decimal n ≠ [] := by
  unfold decimal decimalAux
  split
  · simp
  · rw [decimalAux_acc]; simp

theorem decimal_no_dot (n : Nat) : '.' ∉ decimal n := by
  intro h
  have := decimal_all_digits n '.' h
  exact absurd this (by decide)

theorem ParseInt_decimal (n : Nat) (h : n < 2 ^ 63) :
    ParseInt (decimal n) = .ok (n : Int) := by
  have hp := parseDigits_decimal n
  have hd := decimal_all_digits n
  cases hs : decimal n with
  | nil => exact absurd hs (decimal_ne_nil n)
  | cons c cs =>
    rw [hs] at hp hd
    have hc := hd c (by simp)
    have h1 : c ≠ '+' := by rintro rfl; exact absurd hc (by decide)
    have h2 : c ≠ '-' := by rintro rfl; exact absurd hc (by decide)
    simp only [ParseInt, h1, h2, or_self, if_false, hp]
    have h3 : n < 9223372036854775808 := by simpa using h
    simp [h3]

/-! ## Lemmas: the two loops of `Get` -/

theorem normalizeParts_later (path : GoString) (orig parts : List GoString) :
    ∀ k, k ≠ 0 → normalizeParts path k orig parts =
      if [] ∈ orig then .error (.invalidPath path) else .ok parts := by
  induction orig with
  | nil => intro k _; simp [normalizeParts]
  | cons v orig ih =>
    intro k hk
    unfold normalizeParts
    by_cases hv : v = []
    · simp [hv, hk]
    · have hv2 : ¬ ([] = v) := fun e => hv e.symm
      rw [if_neg hv, ih (k + 1) (by omega)]
      simp [hv2]

/-- Function `Get` in one piece: the path is refused when a segment other than the
first is empty, an empty first segment is dropped, and the rest is walked. -/
theorem Get_eq (cfg : Value) (path : GoString) :
    Get cfg path =
      match Split '.' path with
      | [] => .ok cfg
      | v :: rest =>
        if [] ∈ rest then .err (.invalidPath path)
        else if v = [] then walk rest 0 rest cfg
        else walk (v :: rest) 0 (v :: rest) cfg := by
  unfold Get
  cases hs : Split '.' path with
  | nil => exact absurd hs (Split_ne_nil _ _)
  | cons v rest =>
    simp only [normalizeParts]
    by_cases hv : v = []
    · simp only [hv, if_true, List.drop_succ_cons, List.drop_zero]
      rw [normalizeParts_later path rest rest 1 (by omega)]
      by_cases hm : [] ∈ rest <;> simp [hm]
    · simp only [hv, if_false]
      rw [normalizeParts_later path rest (v :: rest) 1 (by omega)]
      by_cases hm : [] ∈ rest <;> simp [hm]

/-- A path written from non-empty, delimiter-free segments is walked as
those segments. -/
theorem Get_Join (cfg : Value) (segs : List GoString) (hne : segs ≠ [])
    (h : ∀ s ∈ segs, s ≠ [] ∧ '.' ∉ s) :
    Get cfg (Join ['.'] segs) = walk segs 0 segs cfg := by
  rw [Get_eq, Split_Join segs hne (fun s hs => (h s hs).2)]
  cases segs with
  | nil => exact absurd rfl hne
  | cons v rest =>
    have hv : v ≠ [] := (h v (by simp)).1
    have hr : [] ∉ rest := fun hm => (h [] (by simp [hm])).1 rfl
    simp [hv, hr]

theorem Step.segment_ok (s : Step) (h : s.writable) :
    s.segment ≠ [] ∧ '.' ∉ s.segment := by
  cases s with
  | key k => exact h
  | index i => exact ⟨decimal_ne_nil i, decimal_no_dot i⟩

/-- Walking the segments of a chain of steps that can be followed consumes
them and arrives at the node the chain leads to. -/
theorem walk_follow (parts : List GoString) (steps : List Step) :
    ∀ (v w : Value) (pos : Nat) (rest : List GoString),
      (∀ s ∈ steps, s.writable) → follow v steps = some w →
      walk parts pos (steps.map Step.segment ++ rest) v =
        walk parts (pos + steps.length) rest w := by
  induction steps with
  | nil =>
    intro v w pos rest _ hf
    simp only [follow, Option.some.injEq] at hf
    simp [hf]
  | cons s steps ih =>
    intro v w pos rest hw hf
    simp only [follow] at hf
    cases ha : s.apply v with
    | none => simp [ha] at hf
    | some u =>
      simp only [ha] at hf
      have hrec := ih u w (pos + 1) rest (fun t ht => hw t (by simp [ht])) hf
      have hlen : pos + (s :: steps).length = pos + 1 + steps.length := by
        simp only [List.length_cons]; omega
      rw [hlen, ← hrec]
      cases v <;> cases s <;> simp only [Step.apply] at ha <;> try contradiction
      · rename_i xs i
        have hi : i < 2 ^ 63 := hw (.index i) (by simp)
        have hlt : i < xs.length := by
          rcases Nat.lt_or_ge i xs.length with h | h
          · exact h
          · rw [List.get?_eq_none.mpr h] at ha; contradiction
        simp only [List.map_cons, List.cons_append, Step.segment, walk,
          ParseInt_decimal i hi]
        have h1 : ((i : Int) < (xs.length : Int)) := by exact_mod_cast hlt
        rw [List.get?_eq_getElem?] at ha
        simp [h1, ha]
      · rename_i m k
        simp only [List.map_cons, List.cons_append, Step.segment, walk, ha]
        rfl

/-! # Theorems -/

theorem walk_nil (parts : List GoString) (pos : Nat) (cfg : Value) :
    walk parts pos [] cfg = .ok cfg := by
  unfold walk; rfl

theorem take_succ_of_append (pre : List GoString) (seg : GoString) (rest : List GoString) :
    (pre ++ seg :: rest).take (pre.length + 1) = pre ++ [seg] := by
  induction pre with
  | nil => simp
  | cons a pre ih => simpa using ih

theorem Split_head_ne_nil (sep c : Char) (cs : GoString) (h : c ≠ sep) :
    ∃ v rest, Split sep (c :: cs) = v :: rest ∧ v ≠ [] := by
  unfold Split
  rw [if_neg h]
  split
  · exact ⟨[c], [], rfl, by simp⟩
  · rename_i hd tl _
    exact ⟨c :: hd, tl, rfl, by simp⟩

/-! ## Path resolution -/

/-- C1. A chain of one or more steps that can be followed from the root
(keys that are non-empty and free of the delimiter, indices below the length
of their sequence and within the `int` range, as every index of a Go slice
is), written as a dotted path, is resolved by `Get` to the node the chain
leads to. -/
theorem get_follows_steps (root v : Value) (steps : List Step)
    (hne : steps ≠ []) (hw : ∀ s ∈ steps, s.writable)
    (hf : follow root steps = some v) :
    Get root (Join ['.'] (steps.map Step.segment)) = .ok v := by
  have hsegs : ∀ s ∈ steps.map Step.segment, s ≠ [] ∧ '.' ∉ s := by
    intro s hs
    obtain ⟨t, ht, rfl⟩ := List.mem_map.mp hs
    exact t.segment_ok (hw t ht)
  rw [Get_Join root _ (by simpa using hne) hsegs]
  have := walk_follow (steps.map Step.segment) steps root v 0 [] hw hf
  rw [List.append_nil] at this
  rw [this, walk_nil]

/-- C1, at the leaf `development.database.host` of the sample document. -/
theorem get_follows_steps_witness :
    Get sampleDoc "development.database.host".toList = .ok (.string "localhost".toList) :=
  get_follows_steps sampleDoc (.string "localhost".toList)
    [.key "development".toList, .key "database".toList, .key "host".toList]
    (by simp) (by decide) rfl

/-- C2. The empty path resolves to the root itself, whatever the root is. -/
theorem get_empty_path (root : Value) : Get root [] = .ok root := by
  rw [Get_eq]
  simp [Split, walk_nil]

/-- C3, as stated, fails at the empty path: `"."` is refused as an invalid
path while `""` resolves to the root. -/
theorem get_leading_delimiter_counterexample :
    ¬ ∀ (root : Value) (p : GoString), p.head? ≠ some '.' →
      Get root ('.' :: p) = Get root p := by
  intro h
  have h0 := h .null [] (by simp)
  have h1 : Get .null ['.'] = .err (.invalidPath ['.']) := rfl
  have h2 : Get .null [] = .ok .null := rfl
  rw [h1, h2] at h0
  cases h0

/-- C3, amended. For a non-empty path `p` that does not begin with the
delimiter: when no segment of `p` is empty, `"." + p` and `p` give the same
result, node or error; when one is, both are refused as invalid paths, each
error quoting the path it was given. -/
theorem get_leading_delimiter (root : Value) (p : GoString) (hne : p ≠ [])
    (hd : p.head? ≠ some '.') :
    ([] ∉ Split '.' p → Get root ('.' :: p) = Get root p) ∧
    ([] ∈ Split '.' p →
      Get root ('.' :: p) = .err (.invalidPath ('.' :: p)) ∧
      Get root p = .err (.invalidPath p)) := by
  cases p with
  | nil => exact absurd rfl hne
  | cons c cs =>
    have hc : c ≠ '.' := by simpa using hd
    obtain ⟨v, rest, hs, hv⟩ := Split_head_ne_nil '.' c cs hc
    have hv2 : ¬ ([] = v) := fun e => hv e.symm
    rw [Get_eq root ('.' :: c :: cs), Get_eq root (c :: cs), Split_cons_sep, hs]
    constructor
    · intro hmem
      have hr : [] ∉ rest := fun hm => hmem (by simp [hm])
      simp [hv, hv2, hr]
    · intro hmem
      have hr : [] ∈ rest := by simpa [hv2] using hmem
      simp [hr]

/-- C3 amended, at the path `development.database.host`. -/
theorem get_leading_delimiter_witness :
    Get sampleDoc ".development.database.host".toList =
      Get sampleDoc "development.database.host".toList :=
  (get_leading_delimiter sampleDoc "development.database.host".toList
    (by decide) (by decide)).1 (by decide)

/-- C4. At a sequence, the segment `-1` is parsed as the integer -1, passes
the only bound check (`-1 < len`), and the element access panics: `Get`
returns neither the invalid-list-index error nor any node. The segments `x`
and `1a` do give the invalid-list-index error. -/
theorem get_negative_index_panics :
    Get listDoc "servers.-1".toList = .panic (.indexOutOfRange (-1) 2) ∧
      Get listDoc "servers.x".toList = .err (.invalidListIndex "servers.x".toList) ∧
      Get listDoc "servers.1a".toList = .err (.invalidListIndex "servers.1a".toList) :=
  ⟨rfl, rfl, rfl⟩

theorem walk_list_out_of_range (parts : List GoString) (pos : Nat)
    (rest : List GoString) (xs : List Value) (i : Nat)
    (hmax : i < 2 ^ 63) (hi : xs.length ≤ i) :
    walk parts pos (decimal i :: rest) (.list xs) =
      .err (.indexOutOfRange (Join ['.'] (parts.take (pos + 1))) xs.length) := by
  have h1 : ¬ ((i : Int) < (xs.length : Int)) := by exact_mod_cast Nat.not_lt.mpr hi
  simp [walk, ParseInt_decimal i hmax, h1]

/-- C5, as stated, fails for an index beyond the `int` range: at a sequence
of length 1 the segment `9223372036854775808` gives the invalid-list-index
error, not the index-out-of-range one. -/
theorem get_index_out_of_range_counterexample :
    ¬ ∀ (xs : List Value) (i : Nat), xs.length ≤ i →
      Get (.list xs) (decimal i) =
        .err (.indexOutOfRange (decimal i) xs.length) := by
  intro h
  have h0 := h [.null] (2 ^ 63) (by decide)
  have h1 : Get (.list [.null]) (decimal (2 ^ 63)) =
      .err (.invalidListIndex (decimal (2 ^ 63))) := rfl
  rw [h1] at h0
  cases h0

/-- C6. On the path `servers.-1` the element access of `Get` uses the index
-1 and panics, and so does the defaulted accessor `UString`, which yields no
value. -/
theorem ustring_negative_index_panics :
    Config.UString ⟨listDoc⟩ "servers.-1".toList ["none".toList] =
      .panic (.indexOutOfRange (-1) 2) := rfl

/-! ## Defaulted accessors -/

/-- C7. Each defaulted accessor returns the value of its strict accessor
when that one succeeds, whatever the defaults; when the strict accessor
fails it returns the first default if there is one, and otherwise the zero
value of its type: `""`, `false`, `0`, the empty sequence, the empty
mapping. -/
theorem defaulted_accessors (parseFloat : GoString → Except NumErrKind float64)
    (c : Config) (path : GoString) :
    (∀ ds : Variadic GoString,
      (∀ v, c.String path = .ok v → c.UString path ds = .value v) ∧
      (∀ e, c.String path = .err e → c.UString path ds = .value (ds.headD []))) ∧
    (∀ ds : Variadic GoBool,
      (∀ v, c.Bool path = .ok v → c.UBool path ds = .value v) ∧
      (∀ e, c.Bool path = .err e → c.UBool path ds = .value (ds.headD false))) ∧
    (∀ ds : Variadic float64,
      (∀ v, c.Float64 parseFloat path = .ok v →
        c.UFloat64 parseFloat path ds = .value v) ∧
      (∀ e, c.Float64 parseFloat path = .err e →
        c.UFloat64 parseFloat path ds = .value (ds.headD (.finite false 0 0)))) ∧
    (∀ ds : Variadic GoInt,
      (∀ v, c.Int path = .ok v → c.UInt path ds = .value v) ∧
      (∀ e, c.Int path = .err e → c.UInt path ds = .value (ds.headD 0))) ∧
    (∀ ds : Variadic Slice,
      (∀ v, c.List path = .ok v → c.UList path ds = .value v) ∧
      (∀ e, c.List path = .err e → c.UList path ds = .value (ds.headD []))) ∧
    (∀ ds : Variadic StrMap,
      (∀ v, c.Map path = .ok v → c.UMap path ds = .value v) ∧
      (∀ e, c.Map path = .err e → c.UMap path ds = .value (ds.headD []))) := by
  refine ⟨fun ds => ⟨fun v h => ?_, fun e h => ?_⟩, fun ds => ⟨fun v h => ?_, fun e h => ?_⟩,
    fun ds => ⟨fun v h => ?_, fun e h => ?_⟩, fun ds => ⟨fun v h => ?_, fun e h => ?_⟩,
    fun ds => ⟨fun v h => ?_, fun e h => ?_⟩, fun ds => ⟨fun v h => ?_, fun e h => ?_⟩⟩
  · simp [Config.UString, h]
  · cases ds <;> simp [Config.UString, h]
  · simp [Config.UBool, h]
  · cases ds <;> simp [Config.UBool, h]
  · simp [Config.UFloat64, h]
  · cases ds <;> simp [Config.UFloat64, h]
  · simp [Config.UInt, h]
  · cases ds <;> simp [Config.UInt, h]
  · simp [Config.UList, h]
  · cases ds <;> simp [Config.UList, h]
  · simp [Config.UMap, h]
  · cases ds <;> simp [Config.UMap, h]

/-- C7, on the sample document: a missing key gives the first of two
defaults. -/
theorem defaulted_accessors_witness :
    Config.UString ⟨sampleDoc⟩ "development.database.missing".toList
      ["fallback".toList, "second".toList] = .value "fallback".toList :=
  ((defaulted_accessors (fun _ => .error .malformed) ⟨sampleDoc⟩
    "development.database.missing".toList).1
      ["fallback".toList, "second".toList]).2
    (.nonexistentMapKey "development.database.missing".toList) rfl

/-! ## Coercion to `bool` -/

theorem ParseBool_true_iff (s : GoString) : ParseBool s = .ok true ↔ s ∈ trueSpellings := by
  unfold ParseBool trueSpellings
  split
  · simp_all
  · split <;> simp_all

theorem ParseBool_false_iff (s : GoString) :
    ParseBool s = .ok false ↔ s ∈ falseSpellings := by
  unfold ParseBool falseSpellings
  split
  · rename_i h
    constructor
    · intro h'
      cases h'
    · intro hm
      exfalso
      revert hm
      rcases h with h | h | h | h | h | h <;> subst h <;> decide
  · split <;> simp_all

theorem ParseBool_error (s : GoString) (h1 : s ∉ trueSpellings) (h2 : s ∉ falseSpellings) :
    ParseBool s = .error .malformed := by
  unfold trueSpellings at h1
  unfold falseSpellings at h2
  unfold ParseBool
  simp_all

/-- C10, as stated, fails at the string `1`: `Bool` reads it as `true`,
though it is not the word `true` in any letter case. -/
theorem bool_of_string_counterexample :
    ¬ ∀ s : GoString,
      (Config.Bool ⟨.string s⟩ [] = .ok true ↔ s.map Char.toLower = "true".toList) := by
  intro h
  have h1 : Config.Bool ⟨.string "1".toList⟩ [] = .ok true := rfl
  exact absurd ((h "1".toList).mp h1) (by decide)

/-- C10, amended. When the path resolves to a string `s`, `Bool` returns
`true` exactly when `s` is one of `1`, `t`, `T`, `true`, `TRUE`, `True`,
returns `false` exactly when `s` is one of `0`, `f`, `F`, `false`, `FALSE`,
`False`, and fails with the parse error of `strconv.ParseBool` for every
other string; when the path resolves to a boolean, `Bool` returns it
unchanged. -/
theorem bool_of_string (c : Config) (path : GoString) :
    (∀ s, Get c.Root path = .ok (.string s) →
      (c.Bool path = .ok true ↔ s ∈ trueSpellings) ∧
      (c.Bool path = .ok false ↔ s ∈ falseSpellings) ∧
      (s ∉ trueSpellings → s ∉ falseSpellings →
        c.Bool path = .err (.numError "ParseBool".toList s .malformed))) ∧
    (∀ b, Get c.Root path = .ok (.bool b) → c.Bool path = .ok b) := by
  constructor
  · intro s h
    have hb : c.Bool path =
        match ParseBool s with
        | .ok b => .ok b
        | .error k => .err (.numError "ParseBool".toList s k) := by
      simp [Config.Bool, h]
    refine ⟨?_, ?_, ?_⟩
    · rw [hb, ← ParseBool_true_iff]
      cases hp : ParseBool s <;> simp
    · rw [hb, ← ParseBool_false_iff]
      cases hp : ParseBool s <;> simp
    · intro h1 h2
      rw [hb, ParseBool_error s h1 h2]
  · intro b h
    simp [Config.Bool, h]

/-- C10 amended, at the strings `TRUE` (read as `true`) and `tRUE`
(refused). -/
theorem bool_of_string_witness :
    Config.Bool ⟨.string "TRUE".toList⟩ [] = .ok true ∧
    Config.Bool ⟨.string "tRUE".toList⟩ [] =
      .err (.numError "ParseBool".toList "tRUE".toList .malformed) :=
  ⟨(((bool_of_string ⟨.string "TRUE".toList⟩ []).1 "TRUE".toList rfl).1).mpr (by decide),
   (((bool_of_string ⟨.string "tRUE".toList⟩ []).1 "tRUE".toList rfl).2.2)
     (by decide) (by decide)⟩

/-! ## Lemmas: the shortest decimal lies in the rounding interval -/

theorem zpow_mul_pow_toNat (b : ℚ) (hb : b ≠ 0) (x : Int) :
    b ^ x * b ^ (-x).toNat = b ^ x.toNat := by
  rcases le_or_lt 0 x with h | h
  · have h1 : (-x).toNat = 0 := by omega
    have h2 : ((x.toNat : ℕ) : Int) = x := Int.toNat_of_nonneg h
    rw [h1, pow_zero, mul_one, ← zpow_natCast, h2]
  · have h1 : x.toNat = 0 := by omega
    have h2 : (((-x).toNat : ℕ) : Int) = -x := Int.toNat_of_nonneg (by omega)
    rw [h1, pow_zero, ← zpow_natCast, h2, ← zpow_add₀ hb]
    simp

theorem scaleDec_cast (a : Nat) (q e : Int) :
    ((scaleDec a q e : ℕ) : ℚ) =
      (a : ℚ) * 10 ^ q * ((10 : ℚ) ^ (-q).toNat * 2 ^ (-e).toNat) := by
  have h := zpow_mul_pow_toNat 10 (by norm_num) q
  unfold scaleDec
  push_cast
  rw [← h]
  ring

theorem scaleBin_cast (b : Nat) (e q : Int) :
    ((scaleBin b e q : ℕ) : ℚ) =
      (b : ℚ) * 2 ^ e * ((10 : ℚ) ^ (-q).toNat * 2 ^ (-e).toNat) := by
  have h := zpow_mul_pow_toNat 2 (by norm_num) e
  unfold scaleBin
  push_cast
  rw [← h]
  ring

theorem scale_pos (q e : Int) : (0 : ℚ) < (10 : ℚ) ^ (-q).toNat * 2 ^ (-e).toNat := by
  positivity

theorem scaleBin_le_scaleDec (a b : Nat) (q e : Int) (h : scaleBin b e q ≤ scaleDec a q e) :
    (b : ℚ) * 2 ^ e ≤ (a : ℚ) * 10 ^ q := by
  have hc : ((scaleBin b e q : ℕ) : ℚ) ≤ ((scaleDec a q e : ℕ) : ℚ) := by exact_mod_cast h
  rw [scaleDec_cast, scaleBin_cast] at hc
  exact le_of_mul_le_mul_right hc (scale_pos q e)

theorem scaleDec_le_scaleBin (a b : Nat) (q e : Int) (h : scaleDec a q e ≤ scaleBin b e q) :
    (a : ℚ) * 10 ^ q ≤ (b : ℚ) * 2 ^ e := by
  have hc : ((scaleDec a q e : ℕ) : ℚ) ≤ ((scaleBin b e q : ℕ) : ℚ) := by exact_mod_cast h
  rw [scaleDec_cast, scaleBin_cast] at hc
  exact le_of_mul_le_mul_right hc (scale_pos q e)

theorem exactDecimal_value (m : Nat) (e : Int) :
    ((exactDecimal m e).1 : ℚ) * 10 ^ (exactDecimal m e).2 = (m : ℚ) * 2 ^ e := by
  unfold exactDecimal
  split
  · rename_i h
    have h2 : ((e.toNat : ℕ) : Int) = e := Int.toNat_of_nonneg h
    simp only [zpow_zero, mul_one]
    push_cast
    rw [← zpow_natCast, h2]
  · rename_i h
    have h2 : (((-e).toNat : ℕ) : Int) = -e := Int.toNat_of_nonneg (by omega)
    have he : e = -(((-e).toNat : ℕ) : Int) := by omega
    simp only
    push_cast
    generalize (-e).toNat = n at he
    subst he
    rw [zpow_neg, zpow_neg, zpow_natCast, zpow_natCast]
    have : (10 : ℚ) ^ n = 2 ^ n * 5 ^ n := by rw [← mul_pow]; norm_num
    rw [this]
    field_simp
    ring

theorem quarter_units (m : Nat) (e : Int) :
    (m : ℚ) * 2 ^ e = ((4 * m : ℕ) : ℚ) * 2 ^ (e - 2) := by
  rw [zpow_sub₀ (by norm_num : (2 : ℚ) ≠ 0)]
  push_cast
  field_simp
  ring

theorem lowerBound_le (m : Nat) (e : Int) : lowerBound m e ≤ 4 * m := by
  unfold lowerBound; split <;> omega

theorem lowerBound_ge (m : Nat) (e : Int) : 4 * m - 2 ≤ lowerBound m e := by
  unfold lowerBound; split <;> omega

theorem normalizeMant_spec (fuel : Nat) :
    ∀ (m : Nat) (e : Int), ∃ k : Nat,
      (normalizeMant fuel m e).1 = m * 2 ^ k ∧ (normalizeMant fuel m e).2 = e - k := by
  induction fuel with
  | zero => intro m e; exact ⟨0, by simp [normalizeMant]⟩
  | succ fuel ih =>
    intro m e
    unfold normalizeMant
    split
    · obtain ⟨k, h1, h2⟩ := ih (2 * m) (e - 1)
      refine ⟨k + 1, ?_, ?_⟩
      · rw [h1]; ring
      · rw [h2]; push_cast; ring
    · exact ⟨0, by simp⟩

theorem shortestAux_interval (m : Nat) (e : Int) (dE : Nat) (qE : Int)
    (hv : (dE : ℚ) * 10 ^ qE = ((4 * m : ℕ) : ℚ) * 2 ^ (e - 2)) :
    ∀ k : Nat,
      ((lowerBound m e : ℕ) : ℚ) * 2 ^ (e - 2) ≤
          ((shortestAux m e dE qE k).1 : ℚ) * 10 ^ (shortestAux m e dE qE k).2 ∧
        ((shortestAux m e dE qE k).1 : ℚ) * 10 ^ (shortestAux m e dE qE k).2 ≤
          ((upperBound m : ℕ) : ℚ) * 2 ^ (e - 2) := by
  have h2pos : (0 : ℚ) < 2 ^ (e - 2) := by positivity
  have hlo : ((lowerBound m e : ℕ) : ℚ) * 2 ^ (e - 2) ≤ (dE : ℚ) * 10 ^ qE := by
    rw [hv]
    exact mul_le_mul_of_nonneg_right (by exact_mod_cast lowerBound_le m e) h2pos.le
  have hhi : (dE : ℚ) * 10 ^ qE ≤ ((upperBound m : ℕ) : ℚ) * 2 ^ (e - 2) := by
    rw [hv]
    exact mul_le_mul_of_nonneg_right
      (by exact_mod_cast (show 4 * m ≤ upperBound m by unfold upperBound; omega)) h2pos.le
  intro k
  induction k with
  | zero => exact ⟨hlo, hhi⟩
  | succ k ih =>
    have hq : (10 : ℚ) ^ (qE + ((k + 1 : ℕ) : Int)) = 10 ^ qE * 10 ^ (k + 1) := by
      rw [zpow_add₀ (by norm_num : (10 : ℚ) ≠ 0), zpow_natCast]
    have hqpos : (0 : ℚ) < 10 ^ qE := by positivity
    have hdown : ((dE / 10 ^ (k + 1) : ℕ) : ℚ) * 10 ^ (qE + ((k + 1 : ℕ) : Int)) ≤
        (dE : ℚ) * 10 ^ qE := by
      rw [hq]
      have : ((dE / 10 ^ (k + 1) : ℕ) : ℚ) * 10 ^ (k + 1) ≤ (dE : ℚ) := by
        exact_mod_cast Nat.div_mul_le_self dE (10 ^ (k + 1))
      calc ((dE / 10 ^ (k + 1) : ℕ) : ℚ) * (10 ^ qE * 10 ^ (k + 1))
          = (((dE / 10 ^ (k + 1) : ℕ) : ℚ) * 10 ^ (k + 1)) * 10 ^ qE := by ring
        _ ≤ (dE : ℚ) * 10 ^ qE := mul_le_mul_of_nonneg_right this hqpos.le
    have hup : (dE : ℚ) * 10 ^ qE ≤
        ((dE / 10 ^ (k + 1) + 1 : ℕ) : ℚ) * 10 ^ (qE + ((k + 1 : ℕ) : Int)) := by
      rw [hq]
      have hp : 0 < 10 ^ (k + 1) := by positivity
      have : dE ≤ (dE / 10 ^ (k + 1) + 1) * 10 ^ (k + 1) :=
        (Nat.lt_succ_iff.mp (Nat.lt_succ_of_lt (Nat.lt_div_mul_add hp))).trans
          (by rw [Nat.add_mul, Nat.one_mul])
      have : (dE : ℚ) ≤ ((dE / 10 ^ (k + 1) + 1 : ℕ) : ℚ) * 10 ^ (k + 1) := by
        exact_mod_cast this
      calc (dE : ℚ) * 10 ^ qE
          ≤ (((dE / 10 ^ (k + 1) + 1 : ℕ) : ℚ) * 10 ^ (k + 1)) * 10 ^ qE :=
            mul_le_mul_of_nonneg_right this hqpos.le
        _ = ((dE / 10 ^ (k + 1) + 1 : ℕ) : ℚ) * (10 ^ qE * 10 ^ (k + 1)) := by ring
    have okdown_le : ∀ {incl : Prop},
        (scaleBin (lowerBound m e) (e - 2) (qE + ((k + 1 : ℕ) : Int)) <
            scaleDec (dE / 10 ^ (k + 1)) (qE + ((k + 1 : ℕ) : Int)) (e - 2) ∨
          (incl ∧ scaleBin (lowerBound m e) (e - 2) (qE + ((k + 1 : ℕ) : Int)) =
            scaleDec (dE / 10 ^ (k + 1)) (qE + ((k + 1 : ℕ) : Int)) (e - 2))) →
        ((lowerBound m e : ℕ) : ℚ) * 2 ^ (e - 2) ≤
          ((dE / 10 ^ (k + 1) : ℕ) : ℚ) * 10 ^ (qE + ((k + 1 : ℕ) : Int)) := by
      intro incl h
      apply scaleBin_le_scaleDec
      rcases h with h | ⟨_, h⟩
      · exact h.le
      · exact h.le
    have okup_le : ∀ {incl : Prop},
        (scaleDec (dE / 10 ^ (k + 1) + 1) (qE + ((k + 1 : ℕ) : Int)) (e - 2) <
            scaleBin (upperBound m) (e - 2) (qE + ((k + 1 : ℕ) : Int)) ∨
          (incl ∧ scaleDec (dE / 10 ^ (k + 1) + 1) (qE + ((k + 1 : ℕ) : Int)) (e - 2) =
            scaleBin (upperBound m) (e - 2) (qE + ((k + 1 : ℕ) : Int)))) →
        ((dE / 10 ^ (k + 1) + 1 : ℕ) : ℚ) * 10 ^ (qE + ((k + 1 : ℕ) : Int)) ≤
          ((upperBound m : ℕ) : ℚ) * 2 ^ (e - 2) := by
      intro incl h
      apply scaleDec_le_scaleBin
      rcases h with h | ⟨_, h⟩
      · exact h.le
      · exact h.le
    simp only [shortestAux]
    split_ifs with h1 h2 h3 h4
    · exact ⟨hlo.trans hup, okup_le h1.2⟩
    · exact ⟨okdown_le h1.1, hdown.trans hhi⟩
    · exact ⟨okdown_le h3, hdown.trans hhi⟩
    · exact ⟨hlo.trans hup, okup_le h4⟩
    · exact ih

theorem trimZeros_split (all : GoString) :
    ∃ z : Nat, all = trimZeros all ++ List.replicate z '0' ∧
      z + (trimZeros all).length = all.length := by
  have h := List.takeWhile_append_dropWhile (fun c => decide (c = '0')) all.reverse
  refine ⟨(all.reverse.takeWhile (fun c => decide (c = '0'))).length, ?_, ?_⟩
  · have hz : (all.reverse.takeWhile (fun c => decide (c = '0'))).reverse =
        List.replicate (all.reverse.takeWhile (fun c => decide (c = '0'))).length '0' := by
      rw [List.eq_replicate_iff]
      refine ⟨by simp, ?_⟩
      intro b hb
      have := List.mem_takeWhile_imp (List.mem_reverse.mp hb)
      simpa using this
    have h2 := congrArg List.reverse h
    rw [List.reverse_append, List.reverse_reverse] at h2
    rw [← hz]
    exact h2.symm
  · have h2 := congrArg List.length h
    simp only [List.length_append, List.length_reverse] at h2
    simpa [trimZeros] using h2

theorem parseDigits_append_zeros (xs : GoString) (z acc : Nat) :
    parseDigits acc (xs ++ List.replicate z '0') =
      (parseDigits acc xs).map (fun n => n * 10 ^ z) := by
  induction z with
  | zero => cases h : parseDigits acc xs <;> simp [h]
  | succ z ih =>
    rw [List.replicate_succ', ← List.append_assoc, parseDigits_append_single, ih]
    have h0 : digitVal '0' = some 0 := by decide
    cases h : parseDigits acc xs with
    | none => simp
    | some n => simp [h0, pow_succ, Nat.mul_assoc]

theorem no_integer_in_interval (m : Nat) (e : Int) (he : e < 0)
    (hfrac : ¬ (2 ^ (-e).toNat ∣ m)) (m' : Nat) (e' : Int) (k : Nat)
    (hm' : m' = m * 2 ^ k) (he' : e' = e - k) (K : Nat)
    (hlo : ((lowerBound m' e' : ℕ) : ℚ) * 2 ^ (e' - 2) ≤ (K : ℚ))
    (hhi : (K : ℚ) ≤ ((upperBound m' : ℕ) : ℚ) * 2 ^ (e' - 2)) : False := by
  obtain ⟨a, ha⟩ : ∃ a : Nat, e = -((a : ℕ) : Int) := ⟨(-e).toNat, by omega⟩
  have hat : (-e).toNat = a := by omega
  rw [hat] at hfrac
  have hexp : e' - 2 = -(((a + k + 2 : ℕ)) : Int) := by push_cast; omega
  rw [hexp, zpow_neg, zpow_natCast] at hlo hhi
  have hpos : (0 : ℚ) < 2 ^ (a + k + 2) := by positivity
  have hlo2 : ((lowerBound m' e' : ℕ) : ℚ) ≤ (K : ℚ) * 2 ^ (a + k + 2) := by
    rw [← div_eq_mul_inv, div_le_iff₀ hpos] at hlo
    exact hlo
  have hhi2 : (K : ℚ) * 2 ^ (a + k + 2) ≤ ((upperBound m' : ℕ) : ℚ) := by
    rw [← div_eq_mul_inv, le_div_iff₀ hpos] at hhi
    exact hhi
  have hlo3 : lowerBound m' e' ≤ K * 2 ^ (a + k + 2) := by exact_mod_cast hlo2
  have hhi3 : K * 2 ^ (a + k + 2) ≤ upperBound m' := by exact_mod_cast hhi2
  have hge := lowerBound_ge m' e'
  unfold upperBound at hhi3
  have hsplit : K * 2 ^ (a + k + 2) = 4 * (K * 2 ^ a * 2 ^ k) := by ring
  rw [hsplit] at hlo3 hhi3
  have hX : K * 2 ^ a * 2 ^ k = m' := by omega
  rw [hm'] at hX
  have hk : 0 < 2 ^ k := by positivity
  have : K * 2 ^ a = m := Nat.eq_of_mul_eq_mul_right hk hX
  exact hfrac ⟨K, by rw [← this]; ring⟩

theorem fmtE_has_e (ds : GoString) (dp : Int) : 'e' ∈ fmtE ds dp := by
  unfold fmtE
  split <;> simp

theorem fmtF_has_point (ds : GoString) (dp : Int)
    (h : 0 < ((ds.length : Int) - dp).toNat) : '.' ∈ fmtF ds dp := by
  unfold fmtF
  simp [h]

theorem shortestDecimal_interval (m : Nat) (e : Int) :
    ((lowerBound (normalizeMant 52 m e).1 (normalizeMant 52 m e).2 : ℕ) : ℚ) *
        2 ^ ((normalizeMant 52 m e).2 - 2) ≤
      ((shortestDecimal m e).1 : ℚ) * 10 ^ (shortestDecimal m e).2 ∧
    ((shortestDecimal m e).1 : ℚ) * 10 ^ (shortestDecimal m e).2 ≤
      ((upperBound (normalizeMant 52 m e).1 : ℕ) : ℚ) *
        2 ^ ((normalizeMant 52 m e).2 - 2) := by
  unfold shortestDecimal
  exact shortestAux_interval _ _ _ _
    ((exactDecimal_value _ _).trans (quarter_units _ _)) _

/-- A number with a fraction is never printed as bare digits. -/
theorem formatMagnitude_has_point (m : Nat) (e : Int) (he : e < 0)
    (hfrac : ¬ (2 ^ (-e).toNat ∣ m)) :
    '.' ∈ formatMagnitude m e ∨ 'e' ∈ formatMagnitude m e := by
  have hm : m ≠ 0 := by rintro rfl; exact hfrac (dvd_zero _)
  unfold formatMagnitude
  rw [if_neg hm]
  simp only
  split
  · exact Or.inr (fmtE_has_e _ _)
  · by_cases hprec : 0 < (((trimZeros (decimal (shortestDecimal m e).1)).length : Int) -
        (((decimal (shortestDecimal m e).1).length : Int) + (shortestDecimal m e).2)).toNat
    · exact Or.inl (fmtF_has_point _ _ hprec)
    · exfalso
      obtain ⟨z, hall, hlen⟩ := trimZeros_split (decimal (shortestDecimal m e).1)
      have hp := parseDigits_decimal (shortestDecimal m e).1
      rw [hall, parseDigits_append_zeros] at hp
      obtain ⟨x, -, hx⟩ := Option.map_eq_some'.mp hp
      obtain ⟨k, hk1, hk2⟩ := normalizeMant_spec 52 m e
      obtain ⟨hlo, hhi⟩ := shortestDecimal_interval m e
      have hzq : 0 ≤ (z : Int) + (shortestDecimal m e).2 := by omega
      have hK : ((shortestDecimal m e).1 : ℚ) * 10 ^ (shortestDecimal m e).2 =
          ((x * 10 ^ ((z : Int) + (shortestDecimal m e).2).toNat : ℕ) : ℚ) := by
        have h10 : (10 : ℚ) ≠ 0 := by norm_num
        rw [← hx]
        push_cast
        rw [← zpow_natCast (10 : ℚ) (((z : Int) + (shortestDecimal m e).2).toNat),
          Int.toNat_of_nonneg hzq, zpow_add₀ h10, zpow_natCast]
        ring
      rw [hK] at hlo hhi
      exact no_integer_in_interval m e he hfrac _ _ k hk1 hk2 _ hlo hhi

theorem FormatInt_chars (i : Int) :
    ∀ c ∈ FormatInt i, c = '-' ∨ ('0' ≤ c ∧ c ≤ '9') := by
  intro c hc
  unfold FormatInt at hc
  split at hc
  · rcases List.mem_cons.mp hc with h | h
    · exact Or.inl h
    · exact Or.inr (decimal_all_digits _ c h)
  · exact Or.inr (decimal_all_digits _ c hc)

theorem FormatInt_ne_FormatFloat (f : float64) (hf : f.hasFraction) (i : Int) :
    FormatInt i ≠ FormatFloat f := by
  intro heq
  cases f with
  | inf neg => exact hf
  | nan => exact hf
  | finite neg m e =>
    obtain ⟨he, hfrac⟩ := hf
    have hmem : '.' ∈ FormatFloat (.finite neg m e) ∨ 'e' ∈ FormatFloat (.finite neg m e) := by
      have hff : FormatFloat (.finite neg m e) =
          if neg then '-' :: formatMagnitude m e else formatMagnitude m e := rfl
      rw [hff]
      rcases formatMagnitude_has_point m e he hfrac with h | h
      · left; cases neg <;> simp [h]
      · right; cases neg <;> simp [h]
    rw [← heq] at hmem
    rcases hmem with h | h
    · rcases FormatInt_chars i _ h with h | h <;> exact absurd h (by decide)
    · rcases FormatInt_chars i _ h with h | h <;> exact absurd h (by decide)

/-! ## Coercion to `int` -/

/-- C8. The whole number 1000000 is printed by `fmt.Sprint` as `1e+06`,
which is not the text of the integer 1000000, so `Int` fails on it; 42 and
12345 are returned as integers. -/
theorem int_of_million_fails :
    Config.Int ⟨.float64 (.finite false 1000000 0)⟩ [] =
        .err (.cannotConvertToInt "1e+06".toList) ∧
      Config.Int ⟨.float64 (.finite false 42 0)⟩ [] = .ok 42 ∧
      Config.Int ⟨sampleDoc⟩ "development.database.port".toList = .ok 12345 :=
  ⟨rfl, rfl, rfl⟩

/-- C9. When the path resolves to a number with a fractional part that is
not zero, `Int` fails with the cannot-be-converted-to-int error, which shows
the number as `%v` prints it; no integer is returned. -/
theorem int_of_fraction_fails (c : Config) (path : GoString) (f : float64)
    (h : Get c.Root path = .ok (.float64 f)) (hf : f.hasFraction) :
    c.Int path = .err (.cannotConvertToInt (FormatFloat f)) := by
  simp [Config.Int, h, FormatInt_ne_FormatFloat f hf]

/-- C9, at the number 42.5 (`85 * 2^-1`). -/
theorem int_of_fraction_fails_witness :
    Config.Int ⟨.float64 (.finite false 85 (-1))⟩ [] =
      .err (.cannotConvertToInt "42.5".toList) :=
  int_of_fraction_fails ⟨.float64 (.finite false 85 (-1))⟩ []
    (.finite false 85 (-1)) rfl (by decide)

/-! ## Lemmas: walking a path in two parts -/

/-- When the walk over `pre` arrives at a node, the walk over `pre ++ rest`
goes on from that node. -/
theorem walk_append_ok (pre : List GoString) :
    ∀ (parts parts' : List GoString) (pos pos' : Nat) (rest : List GoString)
      (root v : Value),
      walk parts pos pre root = .ok v →
      walk parts' pos' (pre ++ rest) root = walk parts' (pos' + pre.length) rest v := by
  induction pre with
  | nil =>
    intro parts parts' pos pos' rest root v h
    rw [walk_nil] at h
    cases h
    simp
  | cons seg pre ih =>
    intro parts parts' pos pos' rest root v h
    have hlen : pos' + (seg :: pre).length = pos' + 1 + pre.length := by
      simp only [List.length_cons]; omega
    rw [hlen]
    cases root with
    | list c =>
      simp only [walk, List.cons_append] at h ⊢
      cases hp : ParseInt seg with
      | error k => simp [hp] at h
      | ok i =>
        simp only [hp] at h ⊢
        by_cases h1 : i < (c.length : Int)
        · by_cases h2 : 0 ≤ i
          · simp only [h1, h2, if_true] at h ⊢
            cases hg : c.get? i.toNat with
            | none =>
              rw [List.get?_eq_none] at hg
              omega
            | some u =>
              simp only [hg] at h ⊢
              exact ih _ _ _ _ _ _ _ h
          · simp [h1, h2] at h
        · simp [h1] at h
    | map c =>
      simp only [walk, List.cons_append] at h ⊢
      cases hl : mapLookup seg c with
      | none => simp [hl] at h
      | some u =>
        simp only [hl] at h ⊢
        exact ih _ _ _ _ _ _ _ h
    | null => simp [walk] at h
    | bool b => simp [walk] at h
    | float64 f => simp [walk] at h
    | int i => simp [walk] at h
    | string s => simp [walk] at h
    | imap m => simp [walk] at h
    | other t => simp [walk] at h

/-- Whether the walk arrives, and where, does not depend on the bookkeeping
used for error texts. -/
theorem walk_ok_indep (parts parts' : List GoString) (pos pos' : Nat)
    (segs : List GoString) (root v : Value) (h : walk parts pos segs root = .ok v) :
    walk parts' pos' segs root = .ok v := by
  have := walk_append_ok segs parts parts' pos pos' [] root v h
  rw [List.append_nil] at this
  rw [this, walk_nil]

theorem Split_append (a b : GoString) :
    Split '.' (a ++ '.' :: b) = Split '.' a ++ Split '.' b := by
  induction a with
  | nil => simp [Split]
  | cons c cs ih =>
    by_cases hc : c = '.'
    · simp [Split, hc, ih]
    · obtain ⟨h, t, hs⟩ := List.exists_cons_of_ne_nil (Split_ne_nil '.' cs)
      simp [Split, hc, ih, hs]

theorem Get_segments (root : Value) (segs : List GoString)
    (h : ∀ s ∈ segs, s ≠ [] ∧ '.' ∉ s) (hne : segs ≠ []) :
    Get root (Join ['.'] segs) = walk segs 0 segs root :=
  Get_Join root segs hne h

/-! ## Strict accessors: kinds and error propagation -/

/-- C12. When the path resolves to a node `n`: `String` fails with a type
mismatch on a sequence or a mapping; `Bool` on a number, a sequence or a
mapping; `Float64` and `Int` on a boolean, a sequence or a mapping; `List`
returns exactly the sequence `n` is and fails with a type mismatch on
anything else, and `Map` does the same for a mapping. Each type-mismatch
error names the expected type and the type of `n`. -/
theorem strict_accessors_type_mismatch
    (parseFloat : GoString → Except NumErrKind float64)
    (c : Config) (path : GoString) (n : Value) (h : Get c.Root path = .ok n) :
    (n.isSequence ∨ n.isMapping →
      c.String path = .err (.typeMismatch "string".toList n.typeName)) ∧
    (n.isNumber ∨ n.isSequence ∨ n.isMapping →
      c.Bool path = .err (.typeMismatch "bool".toList n.typeName)) ∧
    (n.isBoolean ∨ n.isSequence ∨ n.isMapping →
      c.Float64 parseFloat path = .err (.typeMismatch "float64".toList n.typeName)) ∧
    (n.isBoolean ∨ n.isSequence ∨ n.isMapping →
      c.Int path = .err (.typeMismatch "int".toList n.typeName)) ∧
    (∀ xs, c.List path = .ok xs ↔ n = .list xs) ∧
    (n.isSequence = false →
      c.List path = .err (.typeMismatch "[]interface\x7b\x7d".toList n.typeName)) ∧
    (∀ m, c.Map path = .ok m ↔ n = .map m) ∧
    (n.isMapping = false →
      c.Map path = .err (.typeMismatch "map[string]interface\x7b\x7d".toList n.typeName)) := by
  refine ⟨?_, ?_, ?_, ?_, ?_, ?_, ?_, ?_⟩
  · intro hk
    cases n <;> simp [Value.isSequence, Value.isMapping] at hk <;>
      simp [Config.String, h, Value.typeName]
  · intro hk
    cases n <;> simp [Value.isNumber, Value.isSequence, Value.isMapping] at hk <;>
      simp [Config.Bool, h, Value.typeName]
  · intro hk
    cases n <;> simp [Value.isBoolean, Value.isSequence, Value.isMapping] at hk <;>
      simp [Config.Float64, h, Value.typeName]
  · intro hk
    cases n <;> simp [Value.isBoolean, Value.isSequence, Value.isMapping] at hk <;>
      simp [Config.Int, h, Value.typeName]
  · intro xs
    cases n <;> simp [Config.List, h]
  · intro hk
    cases n <;> simp [Value.isSequence] at hk <;> simp [Config.List, h, Value.typeName]
  · intro m
    cases n <;> simp [Config.Map, h]
  · intro hk
    cases n <;> simp [Value.isMapping] at hk <;> simp [Config.Map, h, Value.typeName]

/-- C12, on the sample documents: `Bool` refuses a number, `List` returns the
sequence of servers, `Map` refuses that sequence. -/
theorem strict_accessors_type_mismatch_witness :
    Config.Bool ⟨sampleDoc⟩ "development.database.port".toList =
        .err (.typeMismatch "bool".toList "float64".toList) ∧
      Config.List ⟨listDoc⟩ "servers".toList =
        .ok [.string "alpha".toList, .string "beta".toList] ∧
      Config.Map ⟨listDoc⟩ "servers".toList =
        .err (.typeMismatch "map[string]interface\x7b\x7d".toList
          "[]interface \x7b\x7d".toList) :=
  ⟨(strict_accessors_type_mismatch (fun _ => .error .malformed) ⟨sampleDoc⟩
      "development.database.port".toList (.float64 (.finite false 12345 0)) rfl).2.1
      (Or.inl rfl),
   ((strict_accessors_type_mismatch (fun _ => .error .malformed) ⟨listDoc⟩
      "servers".toList (.list [.string "alpha".toList, .string "beta".toList])
      rfl).2.2.2.2.1 _).mpr rfl,
   (strict_accessors_type_mismatch (fun _ => .error .malformed) ⟨listDoc⟩
      "servers".toList (.list [.string "alpha".toList, .string "beta".toList])
      rfl).2.2.2.2.2.2.2 rfl⟩

/-- C13. When `Get` fails on the path, each of the six strict accessors
fails with the very error `Get` returned. -/
theorem strict_accessors_propagate
    (parseFloat : GoString → Except NumErrKind float64)
    (c : Config) (path : GoString) (e : Error) (h : Get c.Root path = .err e) :
    c.String path = .err e ∧ c.Bool path = .err e ∧
      c.Float64 parseFloat path = .err e ∧ c.Int path = .err e ∧
      c.List path = .err e ∧ c.Map path = .err e := by
  simp [Config.String, Config.Bool, Config.Float64, Config.Int, Config.List,
    Config.Map, h]

/-- C13, at the missing key of the test table. -/
theorem strict_accessors_propagate_witness :
    Config.Int ⟨sampleDoc⟩ "development.database.something".toList =
      .err (.nonexistentMapKey "development.database.something".toList) :=
  (strict_accessors_propagate (fun _ => .error .malformed) ⟨sampleDoc⟩
    "development.database.something".toList
    (.nonexistentMapKey "development.database.something".toList) rfl).2.2.2.1

/-! ## Errors of path resolution -/

/-- C5, amended. When the walk over the segments `pre` arrives at a sequence
of length `N` and the next segment is the decimal rendering of an `i` with
`N ≤ i < 2^63`, `Get` fails with the index-out-of-range error that names the
path up to and including that segment, and `N`, whatever well-formed
segments come after. -/
theorem get_index_out_of_range (root : Value) (pre : List GoString) (xs : List Value)
    (i : Nat) (rest : List GoString)
    (hsegs : ∀ s ∈ pre ++ rest, s ≠ [] ∧ '.' ∉ s)
    (hreach : walk pre 0 pre root = .ok (.list xs))
    (hi : xs.length ≤ i) (hmax : i < 2 ^ 63) :
    Get root (Join ['.'] (pre ++ decimal i :: rest)) =
      .err (.indexOutOfRange (Join ['.'] (pre ++ [decimal i])) xs.length) := by
  have hall : ∀ s ∈ pre ++ decimal i :: rest, s ≠ [] ∧ '.' ∉ s := by
    intro s hs
    rcases List.mem_append.mp hs with hs | hs
    · exact hsegs s (List.mem_append.mpr (Or.inl hs))
    · rcases List.mem_cons.mp hs with rfl | hs
      · exact ⟨decimal_ne_nil i, decimal_no_dot i⟩
      · exact hsegs s (List.mem_append.mpr (Or.inr hs))
  rw [Get_Join root _ (by simp) hall,
    walk_append_ok pre pre _ 0 0 (decimal i :: rest) root _ hreach,
    walk_list_out_of_range _ _ _ _ _ hmax hi]
  simp [take_succ_of_append]

/-- C5 amended, at index 2 of the two servers of the sample list, and at
index 5 of a sequence of length 1 that is reached through the segment `+0`. -/
theorem get_index_out_of_range_witness :
    Get listDoc "servers.2.name".toList =
        .err (.indexOutOfRange "servers.2".toList 2) ∧
      Get nestedListDoc "+0.5".toList = .err (.indexOutOfRange "+0.5".toList 1) :=
  ⟨get_index_out_of_range listDoc ["servers".toList]
      [.string "alpha".toList, .string "beta".toList] 2 ["name".toList]
      (by decide) rfl (by decide) (by decide),
   get_index_out_of_range nestedListDoc ["+0".toList] [.string "x".toList] 5 []
      (by decide) rfl (by decide) (by decide)⟩

theorem quoteRunes_plain (table : Char → Bool) (s : GoString)
    (h : ∀ c ∈ s, plainChar c = true) : quoteRunes table s = s := by
  induction s with
  | nil => rfl
  | cons c cs ih =>
    have hc := h c (by simp)
    simp only [plainChar, decide_eq_true_eq] at hc
    have h1 : ¬ (c = '"' ∨ c = '\\') := by
      rintro (h | h)
      · exact hc.2.2.1 h
      · exact hc.2.2.2 h
    have h2 : IsPrint table c = true := by
      have : c.toNat ≤ 0xFF := by omega
      simp only [IsPrint, this, if_true, decide_eq_true_eq]
      exact Or.inl ⟨hc.1, hc.2.1⟩
    simp only [quoteRunes, appendEscapedRune, if_neg h1, h2, if_true,
      ih (fun x hx => h x (by simp [hx]))]
    rfl

theorem Quote_plain (table : Char → Bool) (s : GoString)
    (h : ∀ c ∈ s, plainChar c = true) : Quote table s = '"' :: (s ++ ['"']) := by
  unfold Quote
  rw [quoteRunes_plain table s h]

/-- C14, as stated, fails for a key that holds a double quote: at the
missing key `a"b` below `development` the error text has `development.a\"b`
between its quotes and does not contain the prefix `development.a"b`. -/
theorem get_nonexistent_key_counterexample :
    ¬ ∀ (table : Char → Bool) (root : Value) (pre : List GoString) (m : StrMap)
        (seg : GoString) (rest : List GoString),
      (∀ s ∈ pre ++ seg :: rest, s ≠ [] ∧ '.' ∉ s) →
      walk pre 0 pre root = .ok (.map m) → mapLookup seg m = none →
      ∀ e, Get root (Join ['.'] (pre ++ seg :: rest)) = .err e →
        Join ['.'] (pre ++ [seg]) <:+: e.text table := by
  intro h
  have h0 := h (fun _ => false) sampleDoc ["development".toList]
    [("database".toList,
      .map [("host".toList, .string "localhost".toList),
            ("port".toList, .float64 (.finite false 12345 0))])]
    "a\"b".toList [] (by decide) rfl rfl
    (.nonexistentMapKey "development.a\"b".toList) rfl
  revert h0
  decide

/-- C14, amended. When the walk over the segments `pre` arrives at a mapping
and the next segment is not one of its keys, `Get` fails with the
nonexistent-key error; its text is `Nonexistent map key at ` followed by the
whole prefix up to and including the missing key, joined with the delimiter
and quoted as `%q` quotes it; when every character of that prefix is a
printable ASCII character other than the double quote and the backslash,
the text contains the prefix itself. -/
theorem get_nonexistent_key (table : Char → Bool) (root : Value)
    (pre : List GoString) (m : StrMap) (seg : GoString) (rest : List GoString)
    (hsegs : ∀ s ∈ pre ++ seg :: rest, s ≠ [] ∧ '.' ∉ s)
    (hreach : walk pre 0 pre root = .ok (.map m))
    (hkey : mapLookup seg m = none) :
    Get root (Join ['.'] (pre ++ seg :: rest)) =
        .err (.nonexistentMapKey (Join ['.'] (pre ++ [seg]))) ∧
    (Error.nonexistentMapKey (Join ['.'] (pre ++ [seg]))).text table =
        "Nonexistent map key at ".toList ++ Quote table (Join ['.'] (pre ++ [seg])) ∧
    ((∀ c ∈ Join ['.'] (pre ++ [seg]), plainChar c = true) →
      Join ['.'] (pre ++ [seg]) <:+:
        (Error.nonexistentMapKey (Join ['.'] (pre ++ [seg]))).text table) := by
  refine ⟨?_, rfl, ?_⟩
  · rw [Get_Join root _ (by simp) hsegs,
      walk_append_ok pre pre _ 0 0 (seg :: rest) root _ hreach]
    simp [walk, hkey, take_succ_of_append]
  · intro hplain
    refine ⟨"Nonexistent map key at ".toList ++ ['"'], ['"'], ?_⟩
    simp only [Error.text, Quote_plain table _ hplain]
    simp

/-- C14 amended, at the missing key of the test table: the error text holds
the whole prefix `development.database.something`. -/
theorem get_nonexistent_key_witness :
    Get sampleDoc "development.database.something".toList =
        .err (.nonexistentMapKey "development.database.something".toList) ∧
      (Error.nonexistentMapKey "development.database.something".toList).text
          (fun _ => false) =
        "Nonexistent map key at \"development.database.something\"".toList ∧
      "development.database.something".toList <:+:
        (Error.nonexistentMapKey "development.database.something".toList).text
          (fun _ => false) :=
  have h := get_nonexistent_key (fun _ => false) sampleDoc
    ["development".toList, "database".toList]
    [("host".toList, .string "localhost".toList),
     ("port".toList, .float64 (.finite false 12345 0))]
    "something".toList [] (by decide) rfl rfl
  ⟨h.1, h.2.1, h.2.2 (by decide)⟩

/-- C15. A path that, after dropping at most one leading empty segment,
still has an empty segment is refused with the invalid-path error, which
quotes the path, whatever the root is. -/
theorem get_invalid_path (root : Value) (path : GoString)
    (h : [] ∈ dropLeadingEmpty (Split '.' path)) :
    Get root path = .err (.invalidPath path) := by
  rw [Get_eq]
  cases hs : Split '.' path with
  | nil => exact absurd hs (Split_ne_nil _ _)
  | cons v rest =>
    rw [hs] at h
    have hr : [] ∈ rest := by
      cases v with
      | nil => simpa [dropLeadingEmpty] using h
      | cons x xs => simpa [dropLeadingEmpty] using h
    simp [hr]

/-- C15, at a doubled delimiter after a key that does not exist, at a
trailing delimiter, and at the path `.`. -/
theorem get_invalid_path_witness :
    Get sampleDoc "missing..host".toList = .err (.invalidPath "missing..host".toList) ∧
      Get sampleDoc "development.".toList = .err (.invalidPath "development.".toList) ∧
      Get .null ".".toList = .err (.invalidPath ".".toList) :=
  ⟨get_invalid_path sampleDoc "missing..host".toList (by decide),
   get_invalid_path sampleDoc "development.".toList (by decide),
   get_invalid_path .null ".".toList (by decide)⟩

/-- C16. When the walk over the segments `pre` arrives at a scalar and a
segment remains, `Get` fails with the invalid-type error, which names the
prefix up to and including that segment and the type of the scalar. -/
theorem get_invalid_type (root : Value) (pre : List GoString) (n : Value)
    (seg : GoString) (rest : List GoString)
    (hsegs : ∀ s ∈ pre ++ seg :: rest, s ≠ [] ∧ '.' ∉ s)
    (hreach : walk pre 0 pre root = .ok n) (hn : n.isScalar) :
    Get root (Join ['.'] (pre ++ seg :: rest)) =
      .err (.invalidType (Join ['.'] (pre ++ [seg])) n.typeName) := by
  rw [Get_Join root _ (by simp) hsegs,
    walk_append_ok pre pre _ 0 0 (seg :: rest) root _ hreach]
  cases n <;> simp [Value.isScalar] at hn <;> simp [walk, take_succ_of_append]

/-- C16, below the string leaf `host` of the sample document. -/
theorem get_invalid_type_witness :
    Get sampleDoc "development.database.host.name.first".toList =
      .err (.invalidType "development.database.host.name".toList "string".toList) :=
  get_invalid_type sampleDoc
    ["development".toList, "database".toList, "host".toList]
    (.string "localhost".toList) "name".toList ["first".toList] (by decide) rfl rfl

/-! ## Composition of paths -/

/-- C20. When `a` resolves from the root to `v` and `b` is a non-empty path
that does not begin with the delimiter, `a + "." + b` resolves from the root
to a node exactly when `b` resolves from `v` to that node. -/
theorem get_composes (root v : Value) (a b : GoString)
    (ha : Get root a = .ok v) (hb : b ≠ []) (hd : b.head? ≠ some '.') :
    ∀ w, Get root (a ++ '.' :: b) = .ok w ↔ Get v b = .ok w := by
  intro w
  cases b with
  | nil => exact absurd rfl hb
  | cons x xs =>
    have hx : x ≠ '.' := by simpa using hd
    obtain ⟨vb, rb, hsb, hvb⟩ := Split_head_ne_nil '.' x xs hx
    obtain ⟨va, ra, hsa⟩ := List.exists_cons_of_ne_nil (Split_ne_nil '.' a)
    rw [Get_eq, hsa] at ha
    rw [Get_eq root, Get_eq v, Split_append, hsa, hsb]
    have hra : [] ∉ ra := by
      intro hm
      simp [hm] at ha
    have hvb2 : ¬ ([] = vb) := fun e => hvb e.symm
    simp only [hra, if_false] at ha
    simp only [List.cons_append]
    by_cases hrb : [] ∈ rb
    · simp [hrb]
    · have hmem : [] ∉ ra ++ vb :: rb := by simp [hra, hvb2, hrb]
      simp only [hmem, hrb, hvb, if_false]
      by_cases hva : va = []
      · simp only [hva, if_true] at ha ⊢
        rw [walk_append_ok ra ra _ 0 0 (vb :: rb) root v ha]
        exact ⟨walk_ok_indep _ _ _ _ _ _ _, walk_ok_indep _ _ _ _ _ _ _⟩
      · simp only [hva, if_false] at ha ⊢
        have := walk_append_ok (va :: ra) (va :: ra) (va :: (ra ++ vb :: rb)) 0 0
          (vb :: rb) root v ha
        rw [List.cons_append] at this
        rw [this]
        exact ⟨walk_ok_indep _ _ _ _ _ _ _, walk_ok_indep _ _ _ _ _ _ _⟩

/-- C20, on the sample document: `development`, then `database.host`. -/
theorem get_composes_witness :
    Get sampleDoc "development.database.host".toList = .ok (.string "localhost".toList) :=
  (get_composes sampleDoc
    (.map [("database".toList,
      .map [("host".toList, .string "localhost".toList),
            ("port".toList, .float64 (.finite false 12345 0))])])
    "development".toList "database.host".toList rfl (by decide) (by decide)
    (.string "localhost".toList)).mpr rfl

/-! ## Normalization -/

theorem Except.isOk_ok_iff {ε α : Type} (x : Except ε α) :
    x.isOk = true ↔ ∃ t, x = .ok t := by
  cases x <;> simp [Except.isOk, Except.toBool]

mutual
theorem normalize_isOk : ∀ v : Value, (configs.normalize v).isOk = v.supported
  | .null => rfl
  | .bool _ => rfl
  | .float64 _ => rfl
  | .int _ => rfl
  | .string _ => rfl
  | .other _ => rfl
  | .list xs => by
    have ih := normalizeList_isOk xs
    simp only [configs.normalize, Value.supported]
    cases h : configs.normalizeList xs <;> simp_all [Except.isOk, Except.toBool]
  | .map m => by
    have ih := normalizeMap_isOk m
    simp only [configs.normalize, Value.supported]
    cases h : configs.normalizeMap m <;> simp_all [Except.isOk, Except.toBool]
  | .imap m => by
    have ih := normalizeIMap_isOk m
    simp only [configs.normalize, Value.supported]
    cases h : configs.normalizeIMap m <;> simp_all [Except.isOk, Except.toBool]
theorem normalizeList_isOk :
    ∀ xs : List Value, (configs.normalizeList xs).isOk = Value.supportedList xs
  | [] => rfl
  | v :: rest => by
    have ih1 := normalize_isOk v
    have ih2 := normalizeList_isOk rest
    simp only [configs.normalizeList, Value.supportedList]
    cases h1 : configs.normalize v <;> cases h2 : configs.normalizeList rest <;>
      simp_all [Except.isOk, Except.toBool]
theorem normalizeMap_isOk :
    ∀ m : List (GoString × Value), (configs.normalizeMap m).isOk = Value.supportedMap m
  | [] => rfl
  | (k, v) :: rest => by
    have ih1 := normalize_isOk v
    have ih2 := normalizeMap_isOk rest
    simp only [configs.normalizeMap, Value.supportedMap]
    cases h1 : configs.normalize v <;> cases h2 : configs.normalizeMap rest <;>
      simp_all [Except.isOk, Except.toBool]
theorem normalizeIMap_isOk :
    ∀ m : List (Value × Value), (configs.normalizeIMap m).isOk = Value.supportedIMap m
  | [] => rfl
  | (k, v) :: rest => by
    have ih1 := normalize_isOk v
    have ih2 := normalizeIMap_isOk rest
    cases k <;> simp only [configs.normalizeIMap, Value.supportedIMap] <;>
      first
      | rfl
      | (cases h1 : configs.normalize v <;> cases h2 : configs.normalizeIMap rest <;>
          simp_all [Except.isOk, Except.toBool])
end

/-- C17. Normalization succeeds exactly on the values in which every key of
every mapping is a string and every value that is not a sequence or a
mapping is a boolean, a number or a string; on every other value it returns
an error and no value, and so does `parse`, which returns no `Config`. -/
theorem normalize_succeeds_iff (v : Value) :
    ((∃ t, configs.normalize v = .ok t) ↔ v.supported = true) ∧
    (v.supported = false → ∃ e, configs.normalize v = .error e) ∧
    (∀ (unmarshal : GoString → Except GoString Value) (cfg : GoString),
      unmarshal cfg = .ok v → v.supported = false →
      ∃ e, configs.parse unmarshal cfg = .error (.normalize e)) := by
  have hiff : (∃ t, configs.normalize v = .ok t) ↔ v.supported = true := by
    rw [← normalize_isOk, Except.isOk_ok_iff]
  have hfail : v.supported = false → ∃ e, configs.normalize v = .error e := by
    intro hs
    cases hn : configs.normalize v with
    | error e => exact ⟨e, rfl⟩
    | ok t =>
      have := hiff.mp ⟨t, hn⟩
      rw [hs] at this
      cases this
  refine ⟨hiff, hfail, ?_⟩
  intro unmarshal cfg hu hs
  obtain ⟨e, he⟩ := hfail hs
  exact ⟨e, by simp [configs.parse, hu, he]⟩

/-- C17, on a document with `interface{}` keys, which is normalized, and on
`{"a": null}`, which is refused. -/
theorem normalize_succeeds_iff_witness :
    (∃ t, configs.normalize rawDoc = .ok t) ∧
      (∃ e, configs.normalize nullDoc = .error e) :=
  ⟨(normalize_succeeds_iff rawDoc).1.mpr rfl, (normalize_succeeds_iff nullDoc).2.1 rfl⟩

mutual
theorem normalize_node :
    ∀ v t : Value, configs.normalize v = .ok t →
      t.isNode = true ∧ configs.normalize t = .ok t
  | .null, t, h => by simp [configs.normalize] at h
  | .other _, t, h => by simp [configs.normalize] at h
  | .bool b, t, h => by
    simp only [configs.normalize, Except.ok.injEq] at h
    subst h; exact ⟨rfl, rfl⟩
  | .float64 f, t, h => by
    simp only [configs.normalize, Except.ok.injEq] at h
    subst h; exact ⟨rfl, rfl⟩
  | .int i, t, h => by
    simp only [configs.normalize, Except.ok.injEq] at h
    subst h; exact ⟨rfl, rfl⟩
  | .string s, t, h => by
    simp only [configs.normalize, Except.ok.injEq] at h
    subst h; exact ⟨rfl, rfl⟩
  | .list xs, t, h => by
    simp only [configs.normalize] at h
    cases hl : configs.normalizeList xs with
    | error e => simp [hl] at h
    | ok ys =>
      simp only [hl, Except.ok.injEq] at h
      subst h
      obtain ⟨h1, h2⟩ := normalizeList_node xs ys hl
      exact ⟨by simpa [Value.isNode] using h1, by simp [configs.normalize, h2]⟩
  | .map m, t, h => by
    simp only [configs.normalize] at h
    cases hl : configs.normalizeMap m with
    | error e => simp [hl] at h
    | ok m' =>
      simp only [hl, Except.ok.injEq] at h
      subst h
      obtain ⟨h1, h2⟩ := normalizeMap_node m m' hl
      exact ⟨by simpa [Value.isNode] using h1, by simp [configs.normalize, h2]⟩
  | .imap m, t, h => by
    simp only [configs.normalize] at h
    cases hl : configs.normalizeIMap m with
    | error e => simp [hl] at h
    | ok m' =>
      simp only [hl, Except.ok.injEq] at h
      subst h
      obtain ⟨h1, h2⟩ := normalizeIMap_node m m' hl
      exact ⟨by simpa [Value.isNode] using h1, by simp [configs.normalize, h2]⟩
theorem normalizeList_node :
    ∀ (xs ys : List Value), configs.normalizeList xs = .ok ys →
      Value.isNodeList ys = true ∧ configs.normalizeList ys = .ok ys
  | [], ys, h => by
    simp only [configs.normalizeList, Except.ok.injEq] at h
    subst h; exact ⟨rfl, rfl⟩
  | v :: rest, ys, h => by
    simp only [configs.normalizeList] at h
    cases h1 : configs.normalize v with
    | error e => simp [h1] at h
    | ok item =>
      cases h2 : configs.normalizeList rest with
      | error e => simp [h1, h2] at h
      | ok node =>
        simp only [h1, h2, Except.ok.injEq] at h
        subst h
        obtain ⟨a1, a2⟩ := normalize_node v item h1
        obtain ⟨b1, b2⟩ := normalizeList_node rest node h2
        exact ⟨by simp [Value.isNodeList, a1, b1], by simp [configs.normalizeList, a2, b2]⟩
theorem normalizeMap_node :
    ∀ (m m' : List (GoString × Value)), configs.normalizeMap m = .ok m' →
      Value.isNodeMap m' = true ∧ configs.normalizeMap m' = .ok m'
  | [], m', h => by
    simp only [configs.normalizeMap, Except.ok.injEq] at h
    subst h; exact ⟨rfl, rfl⟩
  | (k, v) :: rest, m', h => by
    simp only [configs.normalizeMap] at h
    cases h1 : configs.normalize v with
    | error e => simp [h1] at h
    | ok item =>
      cases h2 : configs.normalizeMap rest with
      | error e => simp [h1, h2] at h
      | ok node =>
        simp only [h1, h2, Except.ok.injEq] at h
        subst h
        obtain ⟨a1, a2⟩ := normalize_node v item h1
        obtain ⟨b1, b2⟩ := normalizeMap_node rest node h2
        exact ⟨by simp [Value.isNodeMap, a1, b1], by simp [configs.normalizeMap, a2, b2]⟩
theorem normalizeIMap_node :
    ∀ (m : List (Value × Value)) (m' : List (GoString × Value)),
      configs.normalizeIMap m = .ok m' →
      Value.isNodeMap m' = true ∧ configs.normalizeMap m' = .ok m'
  | [], m', h => by
    simp only [configs.normalizeIMap, Except.ok.injEq] at h
    subst h; exact ⟨rfl, rfl⟩
  | (k, v) :: rest, m', h => by
    cases k <;> simp only [configs.normalizeIMap] at h <;> try contradiction
    rename_i key
    cases h1 : configs.normalize v with
    | error e => simp [h1] at h
    | ok item =>
      cases h2 : configs.normalizeIMap rest with
      | error e => simp [h1, h2] at h
      | ok node =>
        simp only [h1, h2, Except.ok.injEq] at h
        subst h
        obtain ⟨a1, a2⟩ := normalize_node v item h1
        obtain ⟨b1, b2⟩ := normalizeIMap_node rest node h2
        exact ⟨by simp [Value.isNodeMap, a1, b1], by simp [configs.normalizeMap, a2, b2]⟩
end

/-- C18. When normalization of `v` succeeds with the tree `t`, `t` is a
Node (its mappings are all string-keyed, at every depth), and normalizing
`t` again succeeds and returns `t` itself. -/
theorem normalize_idempotent (v t : Value) (h : configs.normalize v = .ok t) :
    t.isNode = true ∧ configs.normalize t = .ok t :=
  normalize_node v t h

/-- C18, on a document with `interface{}` keys. -/
theorem normalize_idempotent_witness :
    Value.isNode (.map [("port".toList, .int 8080),
        ("hosts".toList, .list [.string "alpha".toList, .bool true])]) = true ∧
      configs.normalize (.map [("port".toList, .int 8080),
        ("hosts".toList, .list [.string "alpha".toList, .bool true])]) =
      .ok (.map [("port".toList, .int 8080),
        ("hosts".toList, .list [.string "alpha".toList, .bool true])]) :=
  normalize_idempotent rawDoc _ rfl

theorem normalizeList_forall2 :
    ∀ (xs ys : List Value), configs.normalizeList xs = .ok ys →
      List.Forall₂ (fun x y => configs.normalize x = .ok y) xs ys
  | [], ys, h => by
    simp only [configs.normalizeList, Except.ok.injEq] at h
    subst h; exact .nil
  | v :: rest, ys, h => by
    simp only [configs.normalizeList] at h
    cases h1 : configs.normalize v with
    | error e => simp [h1] at h
    | ok item =>
      cases h2 : configs.normalizeList rest with
      | error e => simp [h1, h2] at h
      | ok node =>
        simp only [h1, h2, Except.ok.injEq] at h
        subst h
        exact .cons h1 (normalizeList_forall2 rest node h2)

theorem normalizeMap_forall2 :
    ∀ (m m' : List (GoString × Value)), configs.normalizeMap m = .ok m' →
      List.Forall₂ (fun a b => b.1 = a.1 ∧ configs.normalize a.2 = .ok b.2) m m'
  | [], m', h => by
    simp only [configs.normalizeMap, Except.ok.injEq] at h
    subst h; exact .nil
  | (k, v) :: rest, m', h => by
    simp only [configs.normalizeMap] at h
    cases h1 : configs.normalize v with
    | error e => simp [h1] at h
    | ok item =>
      cases h2 : configs.normalizeMap rest with
      | error e => simp [h1, h2] at h
      | ok node =>
        simp only [h1, h2, Except.ok.injEq] at h
        subst h
        exact .cons ⟨rfl, h1⟩ (normalizeMap_forall2 rest node h2)

theorem normalizeIMap_forall2 :
    ∀ (m : List (Value × Value)) (m' : List (GoString × Value)),
      configs.normalizeIMap m = .ok m' →
      List.Forall₂ (fun a b => a.1 = .string b.1 ∧ configs.normalize a.2 = .ok b.2) m m'
  | [], m', h => by
    simp only [configs.normalizeIMap, Except.ok.injEq] at h
    subst h; exact .nil
  | (k, v) :: rest, m', h => by
    cases k <;> simp only [configs.normalizeIMap] at h <;> try contradiction
    rename_i key
    cases h1 : configs.normalize v with
    | error e => simp [h1] at h
    | ok item =>
      cases h2 : configs.normalizeIMap rest with
      | error e => simp [h1, h2] at h
      | ok node =>
        simp only [h1, h2, Except.ok.injEq] at h
        subst h
        exact .cons ⟨rfl, h1⟩ (normalizeIMap_forall2 rest node h2)

theorem mapLookup_forall2 (k : GoString) :
    ∀ (m m' : List (GoString × Value)),
      List.Forall₂ (fun a b => b.1 = a.1 ∧ configs.normalize a.2 = .ok b.2) m m' →
      (mapLookup k m = none → mapLookup k m' = none) ∧
      (∀ x, mapLookup k m = some x →
        ∃ y, configs.normalize x = .ok y ∧ mapLookup k m' = some y) := by
  intro m m' h
  induction h with
  | nil => simp [mapLookup]
  | @cons a b l l' hab _ ih =>
    obtain ⟨ka, va⟩ := a
    obtain ⟨kb, vb⟩ := b
    obtain ⟨hk, hv⟩ := hab
    simp only at hk hv
    subst hk
    simp only [mapLookup]
    by_cases hkk : kb = k
    · simp [hkk, hv]
    · simpa [hkk] using ih

theorem keys_of_forall2 (m m' : List (GoString × Value))
    (h : List.Forall₂ (fun a b => b.1 = a.1 ∧ configs.normalize a.2 = .ok b.2) m m') :
    m'.map Prod.fst = m.map Prod.fst := by
  induction h with
  | nil => rfl
  | @cons a b l l' hab _ ih => simp [hab.1, ih]

theorem ikeys_of_forall2 (m : List (Value × Value)) (m' : List (GoString × Value))
    (h : List.Forall₂ (fun a b => a.1 = .string b.1 ∧ configs.normalize a.2 = .ok b.2)
      m m') :
    m.map Prod.fst = m'.map (fun b => Value.string b.1) := by
  induction h with
  | nil => rfl
  | @cons a b l l' hab _ ih => simp [hab.1, ih]

/-- C19. When normalization of `v` succeeds with `t`: a boolean, a number or
a string is returned as it is; a sequence gives a sequence of the same
length whose element at each index is the normalization of the element of
`v` at that index; a mapping, string-keyed or not, gives a string-keyed
mapping with the same keys, in which each key is bound to the normalization
of the value it is bound to in `v`. -/
theorem normalize_preserves (v t : Value) (h : configs.normalize v = .ok t) :
    (v.isScalar = true → t = v) ∧
    (∀ xs, v = .list xs → ∃ ys, t = .list ys ∧ ys.length = xs.length ∧
      ∀ (i : Nat) (h₁ : i < xs.length) (h₂ : i < ys.length),
        configs.normalize (xs.get ⟨i, h₁⟩) = .ok (ys.get ⟨i, h₂⟩)) ∧
    (∀ m, v = .map m → ∃ m', t = .map m' ∧ m'.map Prod.fst = m.map Prod.fst ∧
      ∀ k, (mapLookup k m = none → mapLookup k m' = none) ∧
        (∀ x, mapLookup k m = some x →
          ∃ y, configs.normalize x = .ok y ∧ mapLookup k m' = some y)) ∧
    (∀ m, v = .imap m → ∃ m', t = .map m' ∧
      m.map Prod.fst = m'.map (fun b => Value.string b.1) ∧
      List.Forall₂ (fun a b => a.1 = .string b.1 ∧ configs.normalize a.2 = .ok b.2)
        m m') := by
  refine ⟨?_, ?_, ?_, ?_⟩
  · intro hs
    cases v <;> simp [Value.isScalar] at hs <;>
      simp only [configs.normalize, Except.ok.injEq] at h <;> exact h.symm
  · rintro xs rfl
    simp only [configs.normalize] at h
    cases hl : configs.normalizeList xs with
    | error e => simp [hl] at h
    | ok ys =>
      simp only [hl, Except.ok.injEq] at h
      have hf := (List.forall₂_iff_get.mp (normalizeList_forall2 xs ys hl))
      exact ⟨ys, h.symm, hf.1.symm, hf.2⟩
  · rintro m rfl
    simp only [configs.normalize] at h
    cases hl : configs.normalizeMap m with
    | error e => simp [hl] at h
    | ok m' =>
      simp only [hl, Except.ok.injEq] at h
      have hf := normalizeMap_forall2 m m' hl
      exact ⟨m', h.symm, keys_of_forall2 m m' hf, fun k => mapLookup_forall2 k m m' hf⟩
  · rintro m rfl
    simp only [configs.normalize] at h
    cases hl : configs.normalizeIMap m with
    | error e => simp [hl] at h
    | ok m' =>
      simp only [hl, Except.ok.injEq] at h
      have hf := normalizeIMap_forall2 m m' hl
      exact ⟨m', h.symm, ikeys_of_forall2 m m' hf, hf⟩

/-- C19, on a document with `interface{}` keys: the keys `port` and `hosts`
are kept, as strings. -/
theorem normalize_preserves_witness :
    ∃ m', Value.map [("port".toList, .int 8080),
        ("hosts".toList, .list [.string "alpha".toList, .bool true])] = .map m' ∧
      [Value.string "port".toList, Value.string "hosts".toList] =
        m'.map (fun b => Value.string b.1) :=
  have h := (normalize_preserves rawDoc
    (.map [("port".toList, .int 8080),
      ("hosts".toList, .list [.string "alpha".toList, .bool true])]) rfl).2.2.2
    [(.string "port".toList, .int 8080),
     (.string "hosts".toList, .list [.string "alpha".toList, .bool true])] rfl
  h.imp (fun _ hm => ⟨hm.1, hm.2.1⟩)

/-! ## Lemmas: the decimal rendering, digit by digit -/

theorem decimalAux_fuel (n : Nat) :
    ∀ (f1 f2 : Nat) (acc : GoString), n < f1 → n < f2 →
      decimalAux f1 n acc = decimalAux f2 n acc := by
  induction n using Nat.strong_induction_on with
  | _ n ih =>
    intro f1 f2 acc h1 h2
    cases f1 with
    | zero => omega
    | succ f1 =>
      cases f2 with
      | zero => omega
      | succ f2 =>
        unfold decimalAux
        split
        · rfl
        · exact ih (n / 10) (by omega) f1 f2 _ (by omega) (by omega)

theorem decimal_small (n : Nat) (h : n < 10) : decimal n = [digitChar n] := by
  unfold decimal decimalAux
  simp [h]

theorem decimal_step (n : Nat) (h : 10 ≤ n) :
    decimal n = decimal (n / 10) ++ [digitChar (n % 10)] := by
  have h1 : ¬ n < 10 := by omega
  unfold decimal
  rw [decimalAux, if_neg h1, decimalAux_acc,
    decimalAux_fuel (n / 10) n (n / 10 + 1) [] (by omega) (by omega)]

theorem decimal_mul_ten (n : Nat) (h : 1 ≤ n) : decimal (10 * n) = decimal n ++ ['0'] := by
  rw [decimal_step (10 * n) (by omega)]
  have h1 : 10 * n / 10 = n := by omega
  have h2 : 10 * n % 10 = 0 := by omega
  rw [h1, h2]
  rfl

theorem decimal_mul_pow (c : Nat) (h : 1 ≤ c) (t : Nat) :
    decimal (c * 10 ^ t) = decimal c ++ List.replicate t '0' := by
  induction t with
  | zero => simp
  | succ t ih =>
    have hpos : 1 ≤ c * 10 ^ t := Nat.mul_pos h (by positivity)
    have : c * 10 ^ (t + 1) = 10 * (c * 10 ^ t) := by ring
    rw [this, decimal_mul_ten _ hpos, ih, List.replicate_succ', List.append_assoc]

theorem decimal_length_le (j : Nat) :
    ∀ n, n < 10 ^ (j + 1) → (decimal n).length ≤ j + 1 := by
  induction j with
  | zero =>
    intro n hn
    rw [decimal_small n (by simpa using hn)]
    simp
  | succ j ih =>
    intro n hn
    by_cases h : n < 10
    · rw [decimal_small n h]; simp
    · rw [decimal_step n (by omega)]
      have : n / 10 < 10 ^ (j + 1) := by
        rw [Nat.div_lt_iff_lt_mul (by norm_num)]
        calc n < 10 ^ (j + 1 + 1) := hn
          _ = 10 ^ (j + 1) * 10 := by ring
      have := ih (n / 10) this
      simp only [List.length_append, List.length_singleton]
      omega

theorem digitChar_ne_zero (r : Nat) (h1 : r ≠ 0) (h2 : r < 10) : digitChar r ≠ '0' := by
  interval_cases r <;> first | exact absurd rfl h1 | decide

theorem trimZeros_decimal (c : Nat) (h : c % 10 ≠ 0) : trimZeros (decimal c) = decimal c := by
  have hl : ∃ xs, decimal c = xs ++ [digitChar (c % 10)] := by
    by_cases hc : c < 10
    · refine ⟨[], ?_⟩
      rw [decimal_small c hc, Nat.mod_eq_of_lt hc]
      rfl
    · exact ⟨_, decimal_step c (by omega)⟩
  obtain ⟨xs, hxs⟩ := hl
  have hd := digitChar_ne_zero (c % 10) h (Nat.mod_lt _ (by norm_num))
  rw [hxs]
  unfold trimZeros
  simp [List.dropWhile, hd]

theorem exists_trailing_zeros (N : Nat) :
    1 ≤ N → ∃ c t, N = c * 10 ^ t ∧ c % 10 ≠ 0 := by
  induction N using Nat.strong_induction_on with
  | _ N ih =>
    intro hN
    by_cases h : N % 10 = 0
    · obtain ⟨c, t, hc, hm⟩ := ih (N / 10) (by omega) (by omega)
      refine ⟨c, t + 1, ?_, hm⟩
      have : N = 10 * (N / 10) := by omega
      rw [this, hc]
      ring
    · exact ⟨N, 0, by simp, h⟩

theorem pow_ten_not_dvd (c t Q : Nat) (hc : c % 10 ≠ 0) (hQ : t < Q) :
    ¬ (10 ^ Q ∣ c * 10 ^ t) := by
  intro hd
  obtain ⟨d, rfl⟩ : ∃ d, Q = t + (d + 1) := ⟨Q - t - 1, by omega⟩
  rw [pow_add, mul_comm c] at hd
  have h1 : 10 ^ (d + 1) ∣ c := Nat.dvd_of_mul_dvd_mul_left (by positivity) hd
  have h2 : 10 ∣ c := Dvd.dvd.trans (dvd_pow_self 10 (by omega)) h1
  omega

/-! ## Lemmas: the shortest decimal of a whole number below a million -/

theorem normalizeMant_exit (fuel : Nat) :
    ∀ (m : Nat) (e : Int),
      2 ^ 52 ≤ (normalizeMant fuel m e).1 ∨ (normalizeMant fuel m e).2 ≤ -1074 ∨
        m * 2 ^ fuel ≤ (normalizeMant fuel m e).1 := by
  induction fuel with
  | zero => intro m e; right; right; simp [normalizeMant]
  | succ fuel ih =>
    intro m e
    unfold normalizeMant
    split
    · rcases ih (2 * m) (e - 1) with h | h | h
      · exact Or.inl h
      · exact Or.inr (Or.inl h)
      · right; right
        calc m * 2 ^ (fuel + 1) = 2 * m * 2 ^ fuel := by ring
          _ ≤ _ := h
    · rename_i hc
      by_cases h1 : m < 2 ^ 52
      · right; left
        by_contra h2
        exact hc ⟨h1, by omega⟩
      · left; simpa using h1

theorem shortestAux_reject (m : Nat) (e : Int) (dE : Nat) (qE : Int) (k : Nat)
    (hdown : ¬ (scaleBin (lowerBound m e) (e - 2) (qE + ((k + 1 : ℕ) : Int)) ≤
      scaleDec (dE / 10 ^ (k + 1)) (qE + ((k + 1 : ℕ) : Int)) (e - 2)))
    (hup : ¬ (scaleDec (dE / 10 ^ (k + 1) + 1) (qE + ((k + 1 : ℕ) : Int)) (e - 2) ≤
      scaleBin (upperBound m) (e - 2) (qE + ((k + 1 : ℕ) : Int)))) :
    shortestAux m e dE qE (k + 1) = shortestAux m e dE qE k := by
  simp only [shortestAux]
  split_ifs with h1 h2 h3 h4
  · exact absurd (h1.1.elim (fun h => h.le) (fun h => h.2.le)) hdown
  · exact absurd (h1.1.elim (fun h => h.le) (fun h => h.2.le)) hdown
  · exact absurd (h3.elim (fun h => h.le) (fun h => h.2.le)) hdown
  · exact absurd (h4.elim (fun h => h.le) (fun h => h.2.le)) hup
  · rfl

theorem shortestAux_accept (m : Nat) (e : Int) (dE : Nat) (qE : Int) (k : Nat)
    (hdown : scaleBin (lowerBound m e) (e - 2) (qE + ((k + 1 : ℕ) : Int)) <
      scaleDec (dE / 10 ^ (k + 1)) (qE + ((k + 1 : ℕ) : Int)) (e - 2))
    (hr : dE % 10 ^ (k + 1) = 0) :
    shortestAux m e dE qE (k + 1) = (dE / 10 ^ (k + 1), qE + ((k + 1 : ℕ) : Int)) := by
  have hp : 0 < 10 ^ (k + 1) := by positivity
  simp only [shortestAux]
  split_ifs with h1 h2 h3 h4
  · rw [hr] at h2
    rcases h2 with h2 | h2
    · omega
    · omega
  · rfl
  · rfl
  · exact absurd (Or.inl hdown) h3
  · exact absurd (Or.inl hdown) h3

theorem scaleBin_neg_exp (b a Q : Nat) :
    scaleBin b (-(a : Int) - 2) (Q : Int) = b := by
  have h1 : (-(a : Int) - 2).toNat = 0 := by omega
  have h2 : (-(Q : Int)).toNat = 0 := by omega
  simp [scaleBin, h1, h2]

theorem scaleDec_neg_exp (d a Q : Nat) :
    scaleDec d (Q : Int) (-(a : Int) - 2) = d * 10 ^ Q * 2 ^ (a + 2) := by
  have h1 : (-(-(a : Int) - 2)).toNat = a + 2 := by omega
  unfold scaleDec
  rw [h1, Int.toNat_ofNat]

theorem lowerBound_lt (m : Nat) (e : Int) (h : 1 ≤ m) : lowerBound m e < 4 * m := by
  unfold lowerBound; split <;> omega

/-- The walk over the exact decimal of the whole number `c * 10^t` (`c` not
ending in zero), held as `m * 2^-a`, stops at the digits of `c`. -/
theorem shortestAux_whole (m a c t : Nat) (hc : c % 10 ≠ 0) (ha : 1 ≤ a)
    (hm : m = c * 10 ^ t * 2 ^ a) :
    ∀ j, shortestAux m (-(a : Int)) (c * 10 ^ (t + a)) (-(a : Int)) (a + t + j) =
      (c, (t : Int)) := by
  have hc1 : 1 ≤ c := by omega
  have hX : 1 ≤ 10 ^ t := Nat.one_le_pow _ _ (by norm_num)
  have hY : 4 ≤ 2 ^ (a + 2) := by
    have : 1 ≤ 2 ^ a := Nat.one_le_pow _ _ (by norm_num)
    rw [pow_add]; omega
  have hm1 : 1 ≤ m := by
    rw [hm]
    exact Nat.mul_pos (Nat.mul_pos hc1 (by positivity)) (by positivity)
  have h4m : 4 * m = c * 10 ^ t * 2 ^ (a + 2) := by rw [hm, pow_add]; ring
  intro j
  induction j with
  | zero =>
    obtain ⟨k, hk⟩ : ∃ k, a + t = k + 1 := ⟨a + t - 1, by omega⟩
    have hq : -(a : Int) + ((k + 1 : ℕ) : Int) = (t : Int) := by
      rw [← hk]; push_cast; ring
    have hp : 10 ^ (k + 1) = 10 ^ (t + a) := by rw [← hk, Nat.add_comm]
    have hdiv : c * 10 ^ (t + a) / 10 ^ (k + 1) = c := by
      rw [hp]; exact Nat.mul_div_cancel _ (by positivity)
    have hmod : c * 10 ^ (t + a) % 10 ^ (k + 1) = 0 := by
      rw [hp]; exact Nat.mul_mod_left _ _
    rw [Nat.add_zero, hk, shortestAux_accept _ _ _ _ _ ?_ hmod, hdiv, hq]
    rw [hdiv, hq, scaleBin_neg_exp, scaleDec_neg_exp, ← h4m]
    exact lowerBound_lt m _ hm1
  | succ j ih =>
    have hq : -(a : Int) + ((a + t + j + 1 : ℕ) : Int) = ((t + j + 1 : ℕ) : Int) := by
      push_cast; ring
    have hp : 10 ^ (a + t + j + 1) = 10 ^ (j + 1) * 10 ^ (t + a) := by
      rw [← pow_add]; congr 1; omega
    have hdiv : c * 10 ^ (t + a) / 10 ^ (a + t + j + 1) = c / 10 ^ (j + 1) := by
      rw [hp]; exact Nat.mul_div_mul_right _ _ (by positivity)
    have hP : 0 < 10 ^ (j + 1) := by positivity
    have hcmod : c % 10 ^ (j + 1) ≠ 0 := by
      intro h0
      have h1 : 10 ^ (j + 1) ∣ c := Nat.dvd_of_mod_eq_zero h0
      have h2 : 10 ∣ c := Dvd.dvd.trans (dvd_pow_self 10 (by omega)) h1
      omega
    have hdm := Nat.div_add_mod c (10 ^ (j + 1))
    have hml := Nat.mod_lt c hP
    have hpow : 10 ^ (t + j + 1) = 10 ^ (j + 1) * 10 ^ t := by
      rw [← pow_add]; congr 1; omega
    rw [show a + t + (j + 1) = (a + t + j) + 1 from rfl,
      shortestAux_reject _ _ _ _ _ ?_ ?_, ih]
    · rw [hdiv, hq, scaleBin_neg_exp, scaleDec_neg_exp, hpow]
      have hge := lowerBound_ge m (-(a : Int))
      intro hle
      have key : ∀ D r P X Y : ℕ,
          D * (P * X) * Y + r * X * Y = (P * D + r) * X * Y := by
        intros; ring
      have hgap : c / 10 ^ (j + 1) * (10 ^ (j + 1) * 10 ^ t) * 2 ^ (a + 2) +
          c % 10 ^ (j + 1) * 10 ^ t * 2 ^ (a + 2) = 4 * m := by
        rw [key, hdm, h4m]
      have hr : 4 ≤ c % 10 ^ (j + 1) * 10 ^ t * 2 ^ (a + 2) := by
        calc 4 ≤ 2 ^ (a + 2) := hY
          _ = 1 * 1 * 2 ^ (a + 2) := by ring
          _ ≤ c % 10 ^ (j + 1) * 10 ^ t * 2 ^ (a + 2) :=
            Nat.mul_le_mul_right _ (Nat.mul_le_mul (by omega) hX)
      generalize c / 10 ^ (j + 1) * (10 ^ (j + 1) * 10 ^ t) * 2 ^ (a + 2) = A at hgap hle
      generalize c % 10 ^ (j + 1) * 10 ^ t * 2 ^ (a + 2) = B at hgap hr
      omega
    · rw [hdiv, hq, scaleBin_neg_exp, scaleDec_neg_exp, hpow]
      unfold upperBound
      intro hle
      have key : ∀ D r P s X Y : ℕ, P = r + s →
          (D + 1) * (P * X) * Y = (P * D + r) * X * Y + s * X * Y := by
        intro D r P s X Y h
        subst h
        ring
      have hgap : (c / 10 ^ (j + 1) + 1) * (10 ^ (j + 1) * 10 ^ t) * 2 ^ (a + 2) =
          4 * m + (10 ^ (j + 1) - c % 10 ^ (j + 1)) * 10 ^ t * 2 ^ (a + 2) := by
        rw [key _ (c % 10 ^ (j + 1)) _ (10 ^ (j + 1) - c % 10 ^ (j + 1)) _ _ (by omega),
          hdm, h4m]
      have hr : 4 ≤ (10 ^ (j + 1) - c % 10 ^ (j + 1)) * 10 ^ t * 2 ^ (a + 2) := by
        calc 4 ≤ 2 ^ (a + 2) := hY
          _ = 1 * 1 * 2 ^ (a + 2) := by ring
          _ ≤ (10 ^ (j + 1) - c % 10 ^ (j + 1)) * 10 ^ t * 2 ^ (a + 2) :=
            Nat.mul_le_mul_right _ (Nat.mul_le_mul (by omega) hX)
      generalize (c / 10 ^ (j + 1) + 1) * (10 ^ (j + 1) * 10 ^ t) * 2 ^ (a + 2) = A
        at hgap hle
      generalize (10 ^ (j + 1) - c % 10 ^ (j + 1)) * 10 ^ t * 2 ^ (a + 2) = B at hgap hr
      omega

theorem normalizeMant_value (m : Nat) (e : Int) :
    (((normalizeMant 52 m e).1 : ℕ) : ℚ) * 2 ^ (normalizeMant 52 m e).2 = (m : ℚ) * 2 ^ e := by
  obtain ⟨k, hk1, hk2⟩ := normalizeMant_spec 52 m e
  rw [hk1, hk2, zpow_sub₀ (by norm_num : (2 : ℚ) ≠ 0), zpow_natCast]
  push_cast
  field_simp
  ring

/-- A whole number from 1 to 999999 is printed as its decimal digits. -/
theorem formatMagnitude_whole (m : Nat) (e : Int) (N : Nat) (hN : 1 ≤ N)
    (hlt : N < 10 ^ 6) (hv : (m : ℚ) * 2 ^ e = (N : ℚ)) :
    formatMagnitude m e = decimal N := by
  have hm : m ≠ 0 := by
    rintro rfl
    have : (N : ℚ) = 0 := by rw [← hv]; simp
    have : N = 0 := by exact_mod_cast this
    omega
  have hv' := (normalizeMant_value m e).trans hv
  have hexit := normalizeMant_exit 52 m e
  have hsd : shortestDecimal m e =
      shortestAux (normalizeMant 52 m e).1 (normalizeMant 52 m e).2
        (exactDecimal (normalizeMant 52 m e).1 (normalizeMant 52 m e).2).1
        (exactDecimal (normalizeMant 52 m e).1 (normalizeMant 52 m e).2).2
        ((decimal (exactDecimal (normalizeMant 52 m e).1
          (normalizeMant 52 m e).2).1).length - 1) := rfl
  generalize normalizeMant 52 m e = me at hv' hexit hsd
  obtain ⟨m', e'⟩ := me
  simp only at hv' hexit hsd
  have hbig : 2 ^ 52 ≤ m' ∨ e' ≤ -1074 := by
    rcases hexit with h | h | h
    · exact Or.inl h
    · exact Or.inr h
    · left
      calc 2 ^ 52 = 1 * 2 ^ 52 := by ring
        _ ≤ m * 2 ^ 52 := Nat.mul_le_mul_right _ (by omega)
        _ ≤ m' := h
  have he' : e' < 0 := by
    by_contra hge
    have hge : 0 ≤ e' := by omega
    have h52 : 2 ^ 52 ≤ m' := by
      rcases hbig with h | h
      · exact h
      · omega
    obtain ⟨n, rfl⟩ : ∃ n : Nat, e' = (n : Int) := ⟨e'.toNat, by omega⟩
    rw [zpow_natCast] at hv'
    have h1 : m' * 2 ^ n = N := by exact_mod_cast hv'
    have h2 : m' * 1 ≤ m' * 2 ^ n := Nat.mul_le_mul_left _ Nat.one_le_two_pow
    have h3 : (10 : ℕ) ^ 6 < 2 ^ 52 := by norm_num
    omega
  obtain ⟨a, rfl⟩ : ∃ a : Nat, e' = -(a : Int) := ⟨(-e').toNat, by omega⟩
  have ha : 1 ≤ a := by omega
  have hm'N : m' = N * 2 ^ a := by
    rw [zpow_neg, zpow_natCast] at hv'
    have hpos : (0 : ℚ) < 2 ^ a := by positivity
    have : (m' : ℚ) = (N : ℚ) * 2 ^ a := by
      field_simp at hv'
      exact hv'
    exact_mod_cast this
  obtain ⟨c, t, hNc, hc⟩ := exists_trailing_zeros N hN
  have hc1 : 1 ≤ c := by omega
  have hex : exactDecimal m' (-(a : Int)) = (c * 10 ^ (t + a), -(a : Int)) := by
    have h0 : ¬ (0 : Int) ≤ -(a : Int) := by omega
    have h1 : (-(-(a : Int))).toNat = a := by omega
    unfold exactDecimal
    rw [if_neg h0, h1, hm'N, hNc]
    congr 1
    have : (10 : ℕ) ^ (t + a) = 10 ^ t * (2 ^ a * 5 ^ a) := by
      rw [pow_add, ← mul_pow]
      norm_num
    rw [this]
    ring
  have hlenE : (decimal (c * 10 ^ (t + a))).length =
      (decimal c).length + (t + a) := by
    rw [decimal_mul_pow c hc1]
    simp
  have hL : 1 ≤ (decimal c).length := by
    have := decimal_ne_nil c
    cases hd : decimal c with
    | nil => exact absurd hd this
    | cons x xs => simp
  have hres : shortestDecimal m e = (c, (t : Int)) := by
    rw [hsd, hex]
    simp only
    rw [hlenE]
    have hidx : (decimal c).length + (t + a) - 1 = a + t + ((decimal c).length - 1) := by
      omega
    rw [hidx]
    exact shortestAux_whole m' a c t hc ha (by rw [hm'N, hNc]) _
  have hdecN : decimal N = decimal c ++ List.replicate t '0' := by
    rw [hNc, decimal_mul_pow c hc1]
  have hlenN : (decimal c).length + t ≤ 6 := by
    have := decimal_length_le 5 N (by simpa using hlt)
    rw [hdecN] at this
    simpa using this
  unfold formatMagnitude
  rw [if_neg hm]
  simp only [hres, trimZeros_decimal c hc]
  have hnot : ¬ ((((decimal c).length : Int) + (t : Int)) - 1 < -4 ∨
      6 ≤ (((decimal c).length : Int) + (t : Int)) - 1) := by omega
  rw [if_neg hnot]
  unfold fmtF
  have hpos : (0 : Int) < ((decimal c).length : Int) + (t : Int) := by omega
  have htn : (((decimal c).length : Int) + (t : Int)).toNat = (decimal c).length + t := by
    omega
  have hprec : (((decimal c).length : Int) - (((decimal c).length : Int) + (t : Int))).toNat
      = 0 := by omega
  simp only [hpos, if_true, htn, hprec, Nat.lt_irrefl, if_false]
  rw [List.take_of_length_le (by omega), hdecN]
  congr 2
  omega

theorem FormatFloat_whole (neg : Bool) (m : Nat) (e : Int)
    (hw : ¬ (float64.finite neg m e).hasFraction)
    (hlo : -(10 ^ 6) < (float64.finite neg m e).toInt)
    (hhi : (float64.finite neg m e).toInt < 10 ^ 6)
    (hz : ¬ (neg = true ∧ m = 0)) :
    FormatFloat (.finite neg m e) = FormatInt (float64.finite neg m e).toInt := by
  -- the magnitude, as the conversion computes it
  obtain ⟨t, ht⟩ : ∃ t : Nat,
      t = (if 0 ≤ e then m * 2 ^ e.toNat else m / 2 ^ (-e).toNat) := ⟨_, rfl⟩
  have hmin : minInt = -(2 ^ 63) := rfl
  have hts : (float64.finite neg m e).toInt = if neg then -(t : Int) else (t : Int) := by
    have hto : (float64.finite neg m e).toInt =
        if minInt ≤ (if neg then -(t : Int) else (t : Int)) ∧
            (if neg then -(t : Int) else (t : Int)) ≤ maxInt
          then (if neg then -(t : Int) else (t : Int)) else minInt := by
      rw [ht]; rfl
    generalize (if neg then -(t : Int) else (t : Int)) = s at hto
    by_cases hr : minInt ≤ s ∧ s ≤ maxInt
    · rw [hto, if_pos hr]
    · rw [hto, if_neg hr, hmin] at hlo
      norm_num at hlo
  rw [hts] at hlo hhi
  have htlt : t < 10 ^ 6 := by
    cases neg <;> simp at hlo hhi <;> omega
  -- the number it denotes
  have hv : (m : ℚ) * 2 ^ e = (t : ℚ) := by
    by_cases he : 0 ≤ e
    · rw [if_pos he] at ht
      have h2 : ((e.toNat : ℕ) : Int) = e := Int.toNat_of_nonneg he
      rw [ht]
      push_cast
      rw [← zpow_natCast, h2]
    · rw [if_neg he] at ht
      have hdvd : 2 ^ (-e).toNat ∣ m := by
        by_contra hnd
        exact hw ⟨by omega, hnd⟩
      obtain ⟨d, hd⟩ := hdvd
      have h2 : e = -(((-e).toNat : ℕ) : Int) := by omega
      have htd : t = d := by
        rw [ht, hd]
        exact Nat.mul_div_cancel_left _ (by positivity)
      rw [htd, hd, h2]
      generalize (-e).toNat = a
      rw [zpow_neg, zpow_natCast]
      push_cast
      have hpos : (0 : ℚ) < 2 ^ a := by positivity
      field_simp
  have hff : FormatFloat (.finite neg m e) =
      if neg then '-' :: formatMagnitude m e else formatMagnitude m e := rfl
  rw [hts, hff]
  rcases Nat.eq_zero_or_pos t with h0 | hpos
  · -- zero
    have hm0 : m = 0 := by
      rw [h0] at hv
      have h2 : (2 : ℚ) ^ e ≠ 0 := by positivity
      have hv0 : (m : ℚ) * 2 ^ e = 0 := by rw [hv]; simp
      have : (m : ℚ) = 0 := by
        rcases mul_eq_zero.mp hv0 with h | h
        · exact h
        · exact absurd h h2
      exact_mod_cast this
    have hneg : neg = false := by
      cases neg
      · rfl
      · exact absurd ⟨rfl, hm0⟩ hz
    subst hneg
    subst hm0
    subst h0
    rfl
  · have hfm := formatMagnitude_whole m e t hpos htlt hv
    rw [hfm]
    cases neg
    · have h1 : ¬ ((t : Int) < 0) := by omega
      simp [FormatInt, h1]
    · have h1 : (-(t : Int)) < 0 := by omega
      simp [FormatInt, h1]

/-! ## Coercion to `string` -/

/-- C11, as stated, fails at the whole number 1000000, which `String`
returns as `1e+06`; and negative zero is returned as `-0`. -/
theorem string_of_scalar_counterexample :
    (¬ ∀ N : Nat, Config.String ⟨.float64 (.finite false N 0)⟩ [] = .ok (decimal N)) ∧
      Config.String ⟨.float64 (.finite true 0 0)⟩ [] = .ok "-0".toList := by
  refine ⟨?_, rfl⟩
  intro h
  have h0 := h 1000000
  have h1 : Config.String ⟨.float64 (.finite false 1000000 0)⟩ [] =
      .ok "1e+06".toList := rfl
  rw [h1] at h0
  exact absurd (Result.ok.inj h0) (by decide)

/-- C11, amended. When the path resolves to a scalar, `String` returns
`true` or `false` for a boolean, the text itself for a string, the decimal
integer text for an `int`, and the decimal integer text for a `float64`
that is a whole number of magnitude below 10^6 and is not negative zero. -/
theorem string_of_scalar (c : Config) (path : GoString) :
    (∀ b, Get c.Root path = .ok (.bool b) →
      c.String path = .ok (if b then "true".toList else "false".toList)) ∧
    (∀ s, Get c.Root path = .ok (.string s) → c.String path = .ok s) ∧
    (∀ i, Get c.Root path = .ok (.int i) → c.String path = .ok (FormatInt i)) ∧
    (∀ f, Get c.Root path = .ok (.float64 f) → ¬ f.hasFraction →
      -(10 ^ 6) < f.toInt → f.toInt < 10 ^ 6 → (∀ e, f ≠ .finite true 0 e) →
      c.String path = .ok (FormatInt f.toInt)) := by
  refine ⟨?_, ?_, ?_, ?_⟩
  · intro b h
    simp [Config.String, h, FormatBool]
  · intro s h
    simp [Config.String, h]
  · intro i h
    simp [Config.String, h]
  · intro f h hw hlo hhi hz
    have hs : c.String path = .ok (FormatFloat f) := by simp [Config.String, h]
    rw [hs]
    cases f with
    | nan =>
      have : float64.toInt .nan = -(2 ^ 63) := rfl
      rw [this] at hlo
      norm_num at hlo
    | inf neg =>
      have : float64.toInt (.inf neg) = -(2 ^ 63) := rfl
      rw [this] at hlo
      norm_num at hlo
    | finite neg m e =>
      rw [FormatFloat_whole neg m e hw hlo hhi]
      rintro ⟨rfl, rfl⟩
      exact hz e rfl

/-- C11 amended, on the numbers 3 and 12345, the boolean `true` and a
string. -/
theorem string_of_scalar_witness :
    Config.String ⟨scalarDoc⟩ "n".toList = .ok "3".toList ∧
      Config.String ⟨sampleDoc⟩ "development.database.port".toList = .ok "12345".toList ∧
      Config.String ⟨scalarDoc⟩ "b".toList = .ok "true".toList ∧
      Config.String ⟨scalarDoc⟩ "s".toList = .ok "text".toList :=
  ⟨(string_of_scalar ⟨scalarDoc⟩ "n".toList).2.2.2 (.finite false 3 0) rfl
      (by decide) (by decide) (by decide) (by intro e h; cases h),
   (string_of_scalar ⟨sampleDoc⟩ "development.database.port".toList).2.2.2
      (.finite false 12345 0) rfl (by decide) (by decide) (by decide)
      (by intro e h; cases h),
   (string_of_scalar ⟨scalarDoc⟩ "b".toList).1 true rfl,
   (string_of_scalar ⟨scalarDoc⟩ "s".toList).2.1 "text".toList rfl⟩
